import Mathlib

/-!
# simpliCty lexer (`lexers.c`): shallow embedding and verified properties

Conventions of the embedding.

* A C string `const char *source` is the list of its characters; reading
  `source[i]` at or past the end of the list yields the terminating NUL
  (`charAt`).  `strlen` stops at the first NUL, `strdup` copies up to the
  first NUL.
* `int *index` and the global `size_t line_number` are threaded explicitly:
  every function takes the current values and returns the new ones.
  Both are natural numbers here (a scan cannot reach 2^31 characters or
  2^64 lines without exhausting memory first).
* Characters are ASCII, the input format of the specification; the
  `<ctype.h>` predicates are those of the "C" locale.
* The stack buffers `char buffer[N]` are lists that grow at the end; the C
  variable `buffer_index` is the length of the list and appending a character
  is the write `buffer[buffer_index++]`.  A list of length `N` stands for a
  buffer whose terminator has been overwritten, a longer list for a write
  past the buffer.  The token array is a list as well; the lists hold what
  the buffers and the array of the C code hold as long as no write leaves
  them.  `capture_fits` and `within_bounds` follow `buffer_index`,
  `token_count` and `capacity` and say when that is so; the properties of
  whole scans and of captured text are stated for such scans.
* Every `while` loop is a function by recursion on a fuel counter and returns
  `none` when the fuel runs out; callers pass `source.length + 1`.  A result
  `some r` is therefore always the result of the loop itself.
* A function that may return `NULL` returns an `Option Token`.
-/

namespace SimpliCty

/-- The `TokenType` enumeration. -/
inductive TokenType where
  | TOKEN_KEYWORD
  | TOKEN_RESERVED_WORD
  | TOKEN_IDENTIFIER
  | TOKEN_INTEGER
  | TOKEN_FLOAT
  | TOKEN_ARITHMETIC_OPERATOR
  | TOKEN_BOOLEAN_OPERATOR_RELATIONAL
  | TOKEN_BOOLEAN_OPERATOR_LOGICAL
  | TOKEN_ASSIGNMENT_OPERATOR
  | TOKEN_DELIMITER
  | TOKEN_DELIMITER_OPEN_PARENTHESIS
  | TOKEN_DELIMITER_CLOSE_PARENTHESIS
  | TOKEN_DELIMITER_OPEN_BRACE
  | TOKEN_DELIMITER_CLOSE_BRACE
  | TOKEN_DELIMITER_OPEN_BRACKET
  | TOKEN_DELIMITER_CLOSE_BRACKET
  | TOKEN_UNARY_OPERATOR
  | TOKEN_NOISE_WORD
  | TOKEN_COMMENT
  | TOKEN_STRING
  | TOKEN_CHARACTER
  | TOKEN_UNKNOWN
  | TOKEN_EOF
  deriving DecidableEq, Repr

open TokenType

/-- The `Token` record: type, value (text) and line number. -/
structure Token where
  type : TokenType
  value : List Char
  line_num : Nat
  deriving DecidableEq, Repr

/-- The terminating NUL character. -/
def NUL : Char := Char.ofNat 0

/-- Read `source[i]`: the character at `i`, or the terminator past the end. -/
def charAt (source : List Char) (i : Nat) : Char :=
  source.getD i NUL

/-- C `strlen`: the number of characters before the first NUL. -/
def strlen (s : List Char) : Nat :=
  (s.takeWhile (fun c => c != NUL)).length

/-- C `strdup`: the characters before the first NUL. -/
def strdup (s : List Char) : List Char :=
  s.takeWhile (fun c => c != NUL)

/-- C `isdigit` in the "C" locale. -/
def isdigit (c : Char) : Bool :=
  decide (48 ≤ c.toNat) && decide (c.toNat ≤ 57)

/-- C `isalpha` in the "C" locale. -/
def isalpha (c : Char) : Bool :=
  (decide (65 ≤ c.toNat) && decide (c.toNat ≤ 90)) ||
    (decide (97 ≤ c.toNat) && decide (c.toNat ≤ 122))

/-- C `isalnum` in the "C" locale. -/
def isalnum (c : Char) : Bool :=
  isalpha c || isdigit c

/-- C `isspace` in the "C" locale: space, and the controls 9 to 13. -/
def isspace (c : Char) : Bool :=
  decide (c.toNat = 32) || (decide (9 ≤ c.toNat) && decide (c.toNat ≤ 13))

/-- C `strchr(set, c) != NULL`: `c` occurs in `set` or is its terminator. -/
def strchr (set : List Char) (c : Char) : Bool :=
  set.contains c || c == NUL

/-- The function `create_token`: allocate a token holding a copy of `value`. -/
def create_token (type : TokenType) (value : List Char) (line_num : Nat) : Token :=
  { type := type, value := strdup value, line_num := line_num }

/-- The `while` loop of `classify_number`; the state is
`(index, buffer, has_decimal)`.  The list `buffer` holds the contents of
`char buffer[64]` as long as it is shorter than 64. -/
def number_loop (source : List Char) :
    Nat → Nat → List Char → Bool → Option (Nat × List Char × Bool)
  | 0, _, _, _ => none
  | fuel + 1, index, buffer, has_decimal =>
    if isdigit (charAt source index) || (charAt source index == '.' && !has_decimal) then
      number_loop source fuel (index + 1) (buffer ++ [charAt source index])
        (if charAt source index == '.' then true else has_decimal)
    else some (index, buffer, has_decimal)

/-- The function `classify_number`; returns the token and the new index. -/
def classify_number (source : List Char) (index line_number : Nat) : Option (Token × Nat) :=
  match number_loop source (source.length + 1) index [] false with
  | none => none
  | some (index1, buffer, has_decimal) =>
    some (create_token (if has_decimal then TOKEN_FLOAT else TOKEN_INTEGER) buffer line_number,
      index1)

/-- The `while` loop of `classify_string`; the state is
`(index, buffer, line_number)`.  The list `buffer` holds the contents of
`char buffer[256]` as long as it is shorter than 256. -/
def string_loop (source : List Char) :
    Nat → Nat → List Char → Nat → Option (Nat × List Char × Nat)
  | 0, _, _, _ => none
  | fuel + 1, index, buffer, line_number =>
    if charAt source index != '"' && charAt source index != NUL then
      string_loop source fuel (index + 1) (buffer ++ [charAt source index])
        (if charAt source index == '\n' then line_number + 1 else line_number)
    else some (index, buffer, line_number)

/-- The function `classify_string`; returns the token, the new index and the
new line number. -/
def classify_string (source : List Char) (index line_number : Nat) :
    Option (Token × Nat × Nat) :=
  match string_loop source (source.length + 1) (index + 1) [] line_number with
  | none => none
  | some (index1, buffer, line1) =>
    some (create_token TOKEN_STRING buffer line1,
      if charAt source index1 == '"' then index1 + 1 else index1, line1)

/-- The function `classify_character`; returns the token (or `NULL`) and the
new index.  The line number is read only. -/
def classify_character (source : List Char) (index line_number : Nat) : Option Token × Nat :=
  if charAt source index != '\'' then (none, index)
  else
    let character := charAt source (index + 1)
    if character == NUL || character == '\'' then (none, index + 1)
    else if charAt source (index + 2) != '\'' then (none, index + 2)
    else (some (create_token TOKEN_CHARACTER [character, NUL] line_number), index + 3)

/-- The `while` loop of the single-line branch of `classify_comment`; the
state is `(index, buffer)`.  The list `buffer` holds the contents of
`char buffer[256]` as long as it is shorter than 256. -/
def line_comment_loop (source : List Char) :
    Nat → Nat → List Char → Option (Nat × List Char)
  | 0, _, _ => none
  | fuel + 1, index, buffer =>
    if charAt source index != '\n' && charAt source index != NUL then
      line_comment_loop source fuel (index + 1) (buffer ++ [charAt source index])
    else some (index, buffer)

/-- The `while` loop of the multi-line branch of `classify_comment`; the
state is `(index, buffer, line_number)`.  The list `buffer` holds the contents
of `char buffer[256]` as long as it is shorter than 256. -/
def block_comment_loop (source : List Char) :
    Nat → Nat → List Char → Nat → Option (Nat × List Char × Nat)
  | 0, _, _, _ => none
  | fuel + 1, index, buffer, line_number =>
    if !(charAt source index == '^' && charAt source (index + 1) == '~')
        && charAt source index != NUL then
      if charAt source index == '\n' then
        block_comment_loop source fuel (index + 1) (buffer ++ [' ']) (line_number + 1)
      else
        block_comment_loop source fuel (index + 1) (buffer ++ [charAt source index]) line_number
    else some (index, buffer, line_number)

/-- The function `classify_comment`; returns the token (or `NULL`), the new
index and the new line number. -/
def classify_comment (source : List Char) (index line_number : Nat) :
    Option (Option Token × Nat × Nat) :=
  let start_line := line_number
  if charAt source index == '~' && charAt source (index + 1) == '~' then
    match line_comment_loop source (source.length + 1) (index + 2) [] with
    | none => none
    | some (index1, buffer) =>
      some (some (create_token TOKEN_COMMENT buffer line_number), index1, line_number)
  else if charAt source index == '~' && charAt source (index + 1) == '^' then
    match block_comment_loop source (source.length + 1) (index + 2) [] line_number with
    | none => none
    | some (index1, buffer, line1) =>
      some (some (create_token TOKEN_COMMENT buffer start_line),
        if charAt source index1 == '^' && charAt source (index1 + 1) == '~' then index1 + 2
        else index1,
        line1)
  else some (none, index, line_number)

/-- The function `classify_unknown`. -/
def classify_unknown (c : Char) (line_number : Nat) : Token :=
  create_token TOKEN_UNKNOWN [c, NUL] line_number

/-- The nested `switch` of `classify_word`: the `(type, text)` of the `return`
taken inside the switch, or `none` when control leaves the switch by `break`. -/
def word_switch (lexeme : List Char) : Option (TokenType × List Char) :=
  let l := charAt lexeme
  if l 0 = 'b' then
    if l 1 = 'r' then
      if l 2 = 'e' ∧ l 3 = 'a' ∧ l 4 = 'k' ∧ l 5 = NUL then
        some (TOKEN_KEYWORD, "BREAK".toList)
      else none
    else if l 1 = 'o' then
      if l 2 = 'o' ∧ l 3 = 'l' ∧ l 4 = 'e' ∧ l 5 = 'a' ∧ l 6 = 'n' ∧ l 7 = NUL then
        some (TOKEN_RESERVED_WORD, "BOOLEAN".toList)
      else none
    else none
  else if l 0 = 'c' then
    if l 1 = 'h' then
      if l 2 = 'a' ∧ l 3 = 'r' ∧ l 4 = 'a' ∧ l 5 = 'c' ∧ l 6 = 't' ∧ l 7 = 'e' ∧ l 8 = 'r'
          ∧ l 9 = NUL then
        some (TOKEN_RESERVED_WORD, "CHARACTER".toList)
      else none
    else if l 1 = 'o' then
      if l 2 = 'n' then
        if l 3 = 's' then
          if l 4 = 't' ∧ l 5 = 'a' ∧ l 6 = 'n' ∧ l 7 = 't' ∧ l 8 = NUL then
            some (TOKEN_RESERVED_WORD, "CONSTANT".toList)
          else none
        else if l 3 = 't' then
          if l 4 = 'i' ∧ l 5 = 'n' ∧ l 6 = 'u' ∧ l 7 = 'e' ∧ l 8 = NUL then
            some (TOKEN_KEYWORD, "CONTINUE".toList)
          else none
        else none
      else none
    else none
  else if l 0 = 'd' then
    if l 1 = 'o' then
      if l 2 = NUL then some (TOKEN_NOISE_WORD, "DO".toList) else none
    else if l 1 = 'e' then
      if l 2 = 'f' ∧ l 3 = 'a' ∧ l 4 = 'u' ∧ l 5 = 'l' ∧ l 6 = 't' ∧ l 7 = NUL then
        some (TOKEN_KEYWORD, "DEFAULT".toList)
      else none
    else if l 1 = 'i' then
      if l 2 = 's' ∧ l 3 = 'p' ∧ l 4 = 'l' ∧ l 5 = 'a' ∧ l 6 = 'y' ∧ l 7 = NUL then
        some (TOKEN_KEYWORD, "DISPLAY".toList)
      else none
    else none
  else if l 0 = 'e' then
    if l 1 = 'l' then
      if l 2 = 's' ∧ l 3 = 'e' ∧ l 4 = NUL then some (TOKEN_KEYWORD, "ELSE".toList) else none
    else if l 1 = 'n' then
      if l 2 = 'd' ∧ l 3 = NUL then some (TOKEN_NOISE_WORD, "END".toList) else none
    else none
  else if l 0 = 'f' then
    if l 1 = 'o' then
      if l 2 = 'r' ∧ l 3 = NUL then some (TOKEN_KEYWORD, "FOR".toList) else none
    else if l 1 = 'l' then
      if l 2 = 'o' ∧ l 3 = 'a' ∧ l 4 = 't' ∧ l 5 = NUL then
        some (TOKEN_RESERVED_WORD, "FLOAT".toList)
      else none
    else if l 1 = 'a' then
      if l 2 = 'l' ∧ l 3 = 's' ∧ l 4 = 'e' ∧ l 5 = NUL then
        some (TOKEN_RESERVED_WORD, "FALSE".toList)
      else none
    else none
  else if l 0 = 'i' then
    if l 1 = 'f' then
      if l 2 = NUL then some (TOKEN_KEYWORD, "IF".toList) else none
    else if l 1 = 'n' then
      if l 2 = 't' then
        if l 3 = 'e' ∧ l 4 = 'g' ∧ l 5 = 'e' ∧ l 6 = 'r' ∧ l 7 = NUL then
          some (TOKEN_RESERVED_WORD, "INTEGER".toList)
        else none
      else if l 2 = 'p' then
        if l 3 = 'u' ∧ l 4 = 't' ∧ l 5 = NUL then some (TOKEN_KEYWORD, "INPUT".toList)
        else none
      else none
    else none
  else if l 0 = 'l' then
    if l 1 = 'e' then
      if l 2 = 't' ∧ l 3 = NUL then some (TOKEN_NOISE_WORD, "LET".toList) else none
    else none
  else if l 0 = 'm' then
    if l 1 = 'a' then
      if l 2 = 'i' ∧ l 3 = 'n' ∧ l 4 = NUL then some (TOKEN_KEYWORD, "MAIN".toList) else none
    else none
  else if l 0 = 'n' then
    if l 1 = 'u' then
      if l 2 = 'l' ∧ l 3 = 'l' ∧ l 4 = NUL then some (TOKEN_RESERVED_WORD, "NULL".toList)
      else none
    else none
  else if l 0 = 'r' then
    if l 1 = 'e' then
      if l 2 = 't' ∧ l 3 = 'u' ∧ l 4 = 'r' ∧ l 5 = 'n' ∧ l 6 = NUL then
        some (TOKEN_KEYWORD, "RETURN".toList)
      else none
    else none
  else if l 0 = 's' then
    if l 1 = 't' then
      if l 2 = 'r' ∧ l 3 = 'i' ∧ l 4 = 'n' ∧ l 5 = 'g' ∧ l 6 = NUL then
        some (TOKEN_RESERVED_WORD, "STRING".toList)
      else none
    else none
  else if l 0 = 't' then
    if l 1 = 'h' then
      if l 2 = 'e' ∧ l 3 = 'n' ∧ l 4 = NUL then some (TOKEN_NOISE_WORD, "THEN".toList) else none
    else if l 1 = 'r' then
      if l 2 = 'u' ∧ l 3 = 'e' ∧ l 4 = NUL then some (TOKEN_RESERVED_WORD, "TRUE".toList)
      else none
    else none
  else if l 0 = 'v' then
    if l 1 = 'o' then
      if l 2 = 'i' ∧ l 3 = 'd' ∧ l 4 = NUL then some (TOKEN_RESERVED_WORD, "VOID".toList)
      else none
    else none
  else if l 0 = 'w' then
    if l 1 = 'h' then
      if l 2 = 'i' ∧ l 3 = 'l' ∧ l 4 = 'e' ∧ l 5 = NUL then
        some (TOKEN_KEYWORD, "WHILE".toList)
      else none
    else none
  else none

/-- The function `classify_word`: the token returned inside the switch, or
the identifier token of the final `return`. -/
def classify_word (lexeme : List Char) (line_number : Nat) : Token :=
  match word_switch lexeme with
  | some (type, text) => create_token type text line_number
  | none => create_token TOKEN_IDENTIFIER lexeme line_number

/-- The function `classify_operator`; returns the token (or `NULL`) and the
new index.  Leaving the switch by `break` reaches the final `return NULL`. -/
def classify_operator (source : List Char) (index line_number : Nat) : Option Token × Nat :=
  let current := charAt source index
  let next := charAt source (index + 1)
  if current = '<' then
    if next = '=' then
      (some (create_token TOKEN_BOOLEAN_OPERATOR_RELATIONAL "<=".toList line_number), index + 2)
    else (some (create_token TOKEN_BOOLEAN_OPERATOR_RELATIONAL "<".toList line_number), index + 1)
  else if current = '>' then
    if next = '=' then
      (some (create_token TOKEN_BOOLEAN_OPERATOR_RELATIONAL ">=".toList line_number), index + 2)
    else (some (create_token TOKEN_BOOLEAN_OPERATOR_RELATIONAL ">".toList line_number), index + 1)
  else if current = '=' then
    if next = '=' then
      (some (create_token TOKEN_BOOLEAN_OPERATOR_RELATIONAL "==".toList line_number), index + 2)
    else (some (create_token TOKEN_ASSIGNMENT_OPERATOR "=".toList line_number), index + 1)
  else if current = '!' then
    if next = '=' then
      (some (create_token TOKEN_BOOLEAN_OPERATOR_RELATIONAL "!=".toList line_number), index + 2)
    else (some (create_token TOKEN_BOOLEAN_OPERATOR_LOGICAL "!".toList line_number), index + 1)
  else if current = '&' then
    if next = '&' then
      (some (create_token TOKEN_BOOLEAN_OPERATOR_LOGICAL "&&".toList line_number), index + 2)
    else (none, index + 1)
  else if current = '|' then
    if next = '|' then
      (some (create_token TOKEN_BOOLEAN_OPERATOR_LOGICAL "||".toList line_number), index + 2)
    else (none, index + 1)
  else if current = '+' then
    if next = '=' then
      (some (create_token TOKEN_ASSIGNMENT_OPERATOR "+=".toList line_number), index + 2)
    else if next = '+' then
      (some (create_token TOKEN_UNARY_OPERATOR "++".toList line_number), index + 2)
    else (some (create_token TOKEN_ARITHMETIC_OPERATOR "+".toList line_number), index + 1)
  else if current = '-' then
    if next = '=' then
      (some (create_token TOKEN_ASSIGNMENT_OPERATOR "-=".toList line_number), index + 2)
    else if next = '-' then
      (some (create_token TOKEN_UNARY_OPERATOR "--".toList line_number), index + 2)
    else (some (create_token TOKEN_ARITHMETIC_OPERATOR "-".toList line_number), index + 1)
  else if current = '*' then
    if next = '=' then
      (some (create_token TOKEN_ASSIGNMENT_OPERATOR "*=".toList line_number), index + 2)
    else (some (create_token TOKEN_ARITHMETIC_OPERATOR "*".toList line_number), index + 1)
  else if current = '/' then
    if next = '=' then
      (some (create_token TOKEN_ASSIGNMENT_OPERATOR "/=".toList line_number), index + 2)
    else (some (create_token TOKEN_ARITHMETIC_OPERATOR "/".toList line_number), index + 1)
  else if current = '$' then
    if next = '=' then
      (some (create_token TOKEN_ASSIGNMENT_OPERATOR "$=".toList line_number), index + 2)
    else (some (create_token TOKEN_ARITHMETIC_OPERATOR "$".toList line_number), index + 1)
  else if current = '%' then
    if next = '=' then
      (some (create_token TOKEN_ASSIGNMENT_OPERATOR "%=".toList line_number), index + 2)
    else (some (create_token TOKEN_ARITHMETIC_OPERATOR "%".toList line_number), index + 1)
  else if current = '^' then
    (some (create_token TOKEN_ARITHMETIC_OPERATOR "^".toList line_number), index + 1)
  else (some (create_token TOKEN_UNKNOWN [current, NUL] line_number), index + 1)

/-- The function `classify_delimiter`. -/
def classify_delimiter (c : Char) (line_number : Nat) : Token :=
  if c = ';' then create_token TOKEN_DELIMITER ";".toList line_number
  else if c = ',' then create_token TOKEN_DELIMITER ",".toList line_number
  else if c = '(' then create_token TOKEN_DELIMITER_OPEN_PARENTHESIS "(".toList line_number
  else if c = ')' then create_token TOKEN_DELIMITER_CLOSE_PARENTHESIS ")".toList line_number
  else if c = '\x7b' then create_token TOKEN_DELIMITER_OPEN_BRACE ['\x7b'] line_number
  else if c = '\x7d' then create_token TOKEN_DELIMITER_CLOSE_BRACE ['\x7d'] line_number
  else if c = '[' then create_token TOKEN_DELIMITER_OPEN_BRACKET "[".toList line_number
  else if c = ']' then create_token TOKEN_DELIMITER_CLOSE_BRACKET "]".toList line_number
  else create_token TOKEN_UNKNOWN [c, NUL] line_number

/-- The word-accumulation `while` loop of `tokenize`; the state is
`(index, buffer)`.  The list `buffer` holds the contents of `char buffer[64]`
as long as it is shorter than 64. -/
def word_loop (source : List Char) : Nat → Nat → List Char → Option (Nat × List Char)
  | 0, _, _ => none
  | fuel + 1, index, buffer =>
    if isalnum (charAt source index) || charAt source index == '_' then
      word_loop source fuel (index + 1) (buffer ++ [charAt source index])
    else some (index, buffer)

/-- The operator character set of the driver, `"+-*/=$%^<>!&|"`. -/
def operator_chars : List Char := "+-*/=$%^<>!&|".toList

/-- The delimiter character set of the driver. -/
def delimiter_chars : List Char := [';', '\x7b', '\x7d', ',', '(', ')', '[', ']']

/-- The `if`/`else if` chain of the loop body of `tokenize` after the comment
test: the token to store (or `NULL`), the new index and the new line number. -/
def dispatch (source : List Char) (c : Char) (index line_number : Nat) :
    Option (Option Token × Nat × Nat) :=
  if isdigit c then
    match classify_number source index line_number with
    | none => none
    | some (token, index1) => some (some token, index1, line_number)
  else if isalpha c || c == '_' then
    match word_loop source (source.length + 1) index [] with
    | none => none
    | some (index1, buffer) => some (some (classify_word buffer line_number), index1, line_number)
  else if strchr operator_chars c then
    some ((classify_operator source index line_number).1,
      (classify_operator source index line_number).2, line_number)
  else if strchr delimiter_chars c then
    some (some (classify_delimiter c line_number), index + 1, line_number)
  else if c == '"' then
    match classify_string source index line_number with
    | none => none
    | some (token, index1, line1) => some (some token, index1, line1)
  else if charAt source index == '\'' then
    some ((classify_character source index line_number).1,
      (classify_character source index line_number).2, line_number)
  else some (none, index + 1, line_number)

/-- One iteration of the `while` loop of `tokenize`, entered with
`index < length`: the token stored by this iteration (if any), the new index
and the new line number. -/
def tokenize_step (source : List Char) (index line_number : Nat) :
    Option (Option Token × Nat × Nat) :=
  let c := charAt source index
  if isspace c then
    some (none, index + 1, if c == '\n' then line_number + 1 else line_number)
  else
    match (if charAt source index == '~' then classify_comment source index line_number
           else some (none, index, line_number)) with
    | none => none
    | some (some comment_token, index1, line1) => some (some comment_token, index1, line1)
    | some (none, index1, line1) => dispatch source c index1 line1

/-- The `while (index < length)` loop of `tokenize` followed by the store of
the end marker; the state is `(index, line_number, tokens, token_count)` and
the result is `(tokens, token_count, line_number)`.  The list `tokens` holds
the contents of the token array as long as every store finds room in it,
which `within_bounds_loop` tracks with the variable `capacity`. -/
def tokenize_loop (source : List Char) (length : Nat) :
    Nat → Nat → Nat → List Token → Nat → Option (List Token × Nat × Nat)
  | 0, _, _, _, _ => none
  | fuel + 1, index, line_number, tokens, token_count =>
    if index < length then
      match tokenize_step source index line_number with
      | none => none
      | some (some token, index1, line1) =>
        tokenize_loop source length fuel index1 line1 (tokens ++ [token]) (token_count + 1)
      | some (none, index1, line1) =>
        tokenize_loop source length fuel index1 line1 tokens token_count
    else
      some (tokens ++ [create_token TOKEN_EOF "EOF".toList line_number], token_count, line_number)

/-- The function `tokenize`, entered with the global `line_number` as given:
the token array including the end marker, `*token_count`, and the value of
`line_number` on return. -/
def tokenize (source : List Char) (line_number : Nat) : Option (List Token × Nat × Nat) :=
  tokenize_loop source (strlen source) (source.length + 1) 0 line_number [] 0

/-! ## Tables and predicates used to state the properties -/

/-- The `(spelling, type, text)` triples returned inside the switch of
`classify_word`, in source order. -/
def word_table : List (List Char × TokenType × List Char) :=
  [("break".toList, TOKEN_KEYWORD, "BREAK".toList),
   ("boolean".toList, TOKEN_RESERVED_WORD, "BOOLEAN".toList),
   ("character".toList, TOKEN_RESERVED_WORD, "CHARACTER".toList),
   ("constant".toList, TOKEN_RESERVED_WORD, "CONSTANT".toList),
   ("continue".toList, TOKEN_KEYWORD, "CONTINUE".toList),
   ("do".toList, TOKEN_NOISE_WORD, "DO".toList),
   ("default".toList, TOKEN_KEYWORD, "DEFAULT".toList),
   ("display".toList, TOKEN_KEYWORD, "DISPLAY".toList),
   ("else".toList, TOKEN_KEYWORD, "ELSE".toList),
   ("end".toList, TOKEN_NOISE_WORD, "END".toList),
   ("for".toList, TOKEN_KEYWORD, "FOR".toList),
   ("float".toList, TOKEN_RESERVED_WORD, "FLOAT".toList),
   ("false".toList, TOKEN_RESERVED_WORD, "FALSE".toList),
   ("if".toList, TOKEN_KEYWORD, "IF".toList),
   ("integer".toList, TOKEN_RESERVED_WORD, "INTEGER".toList),
   ("input".toList, TOKEN_KEYWORD, "INPUT".toList),
   ("let".toList, TOKEN_NOISE_WORD, "LET".toList),
   ("main".toList, TOKEN_KEYWORD, "MAIN".toList),
   ("null".toList, TOKEN_RESERVED_WORD, "NULL".toList),
   ("return".toList, TOKEN_KEYWORD, "RETURN".toList),
   ("string".toList, TOKEN_RESERVED_WORD, "STRING".toList),
   ("then".toList, TOKEN_NOISE_WORD, "THEN".toList),
   ("true".toList, TOKEN_RESERVED_WORD, "TRUE".toList),
   ("void".toList, TOKEN_RESERVED_WORD, "VOID".toList),
   ("while".toList, TOKEN_KEYWORD, "WHILE".toList)]

/-- The C string `lexeme + k` spells `w` and ends there. -/
inductive MatchesAt (lexeme : List Char) : Nat → List Char → Prop
  | nil {k : Nat} : charAt lexeme k = NUL → MatchesAt lexeme k []
  | cons {k : Nat} {c : Char} {w : List Char} :
      charAt lexeme k = c → MatchesAt lexeme (k + 1) w → MatchesAt lexeme k (c :: w)

/-- The two-character operator forms of the specification, each with its
category. -/
def two_char_operators : List (List Char × TokenType) :=
  [("<=".toList, TOKEN_BOOLEAN_OPERATOR_RELATIONAL),
   (">=".toList, TOKEN_BOOLEAN_OPERATOR_RELATIONAL),
   ("==".toList, TOKEN_BOOLEAN_OPERATOR_RELATIONAL),
   ("!=".toList, TOKEN_BOOLEAN_OPERATOR_RELATIONAL),
   ("&&".toList, TOKEN_BOOLEAN_OPERATOR_LOGICAL),
   ("||".toList, TOKEN_BOOLEAN_OPERATOR_LOGICAL),
   ("+=".toList, TOKEN_ASSIGNMENT_OPERATOR),
   ("-=".toList, TOKEN_ASSIGNMENT_OPERATOR),
   ("*=".toList, TOKEN_ASSIGNMENT_OPERATOR),
   ("/=".toList, TOKEN_ASSIGNMENT_OPERATOR),
   ("$=".toList, TOKEN_ASSIGNMENT_OPERATOR),
   ("%=".toList, TOKEN_ASSIGNMENT_OPERATOR),
   ("++".toList, TOKEN_UNARY_OPERATOR),
   ("--".toList, TOKEN_UNARY_OPERATOR)]

/-- The single-character operators of the specification, each with its
category. -/
def one_char_operators : List (List Char × TokenType) :=
  [("<".toList, TOKEN_BOOLEAN_OPERATOR_RELATIONAL),
   (">".toList, TOKEN_BOOLEAN_OPERATOR_RELATIONAL),
   ("!".toList, TOKEN_BOOLEAN_OPERATOR_LOGICAL),
   ("=".toList, TOKEN_ASSIGNMENT_OPERATOR),
   ("+".toList, TOKEN_ARITHMETIC_OPERATOR),
   ("-".toList, TOKEN_ARITHMETIC_OPERATOR),
   ("*".toList, TOKEN_ARITHMETIC_OPERATOR),
   ("/".toList, TOKEN_ARITHMETIC_OPERATOR),
   ("$".toList, TOKEN_ARITHMETIC_OPERATOR),
   ("%".toList, TOKEN_ARITHMETIC_OPERATOR),
   ("^".toList, TOKEN_ARITHMETIC_OPERATOR)]

/-- The keywords of the specification's vocabulary table. -/
def keywords : List (List Char) :=
  ["break".toList, "continue".toList, "default".toList, "display".toList, "else".toList,
   "for".toList, "if".toList, "input".toList, "main".toList, "return".toList, "while".toList]

/-- The reserved words of the specification's vocabulary table. -/
def reserved_words : List (List Char) :=
  ["boolean".toList, "character".toList, "constant".toList, "float".toList, "false".toList,
   "integer".toList, "null".toList, "string".toList, "true".toList, "void".toList]

/-- The noise words of the specification's vocabulary table. -/
def noise_words : List (List Char) :=
  ["do".toList, "end".toList, "let".toList, "then".toList]

/-- A character of a word: a letter, a digit or an underscore. -/
def is_word_char (c : Char) : Bool :=
  isalnum c || c == '_'

/-- A run of digits and decimal points with at most one decimal point, one
point counting as already used when `seen` holds. -/
def NumberText (seen : Bool) (p : List Char) : Prop :=
  (∀ c ∈ p, isdigit c = true ∨ c = '.') ∧ p.count '.' + (if seen then 1 else 0) ≤ 1

/-- The grammar `digit+ ('.' digit+)?` of the specification. -/
def NumberLiteral (s : List Char) : Prop :=
  ∃ a b : List Char, a ≠ [] ∧ (∀ c ∈ a, isdigit c = true) ∧ (∀ c ∈ b, isdigit c = true) ∧
    (s = a ∨ (b ≠ [] ∧ s = a ++ '.' :: b))

/-- The text captured for a block comment body: every newline becomes one
space. -/
def newlines_to_spaces (body : List Char) : List Char :=
  body.map (fun c => if c = '\n' then ' ' else c)

/-- The kind the specification gives a delimiter character: one kind for each
of the six brackets, the generic kind for `;` and `,`, UNKNOWN otherwise. -/
def delimiter_kind (c : Char) : TokenType :=
  if c = '(' then TOKEN_DELIMITER_OPEN_PARENTHESIS
  else if c = ')' then TOKEN_DELIMITER_CLOSE_PARENTHESIS
  else if c = '\x7b' then TOKEN_DELIMITER_OPEN_BRACE
  else if c = '\x7d' then TOKEN_DELIMITER_CLOSE_BRACE
  else if c = '[' then TOKEN_DELIMITER_OPEN_BRACKET
  else if c = ']' then TOKEN_DELIMITER_CLOSE_BRACKET
  else if c = ';' ∨ c = ',' then TOKEN_DELIMITER
  else TOKEN_UNKNOWN

/-- A character in which the driver recognizes nothing: not a letter, digit
or underscore, not `~`, not a quote, not an operator or delimiter character. -/
def unrecognized (c : Char) : Bool :=
  !isalpha c && !isdigit c && c != '_' && c != '~' && c != '"' && c != '\'' &&
    !operator_chars.contains c && !delimiter_chars.contains c

/-- The token `t` with its line number raised by `d`. -/
def shift_token (d : Nat) (t : Token) : Token :=
  { type := t.type, value := t.value, line_num := t.line_num + d }

/-- The result of a scan with the line number of every token, and the final
value of the line counter, raised by `d`. -/
def shift_result (d : Nat) (r : List Token × Nat × Nat) : List Token × Nat × Nat :=
  (r.1.map (shift_token d), r.2.1, r.2.2 + d)

/-- Two successive calls of `tokenize` in one process, on `A` and then on
`B`: the global `line_number`, initialised to 1 and never reset, holds after
the scan of `A` the value with which the scan of `B` starts.  The result is
that of the second call. -/
def tokenize_after (A B : List Char) : Option (List Token × Nat × Nat) :=
  match tokenize A 1 with
  | none => none
  | some (_, _, line_number) => tokenize B line_number

/-- The capture buffer of the iteration of the driver loop entered at `index`
keeps its terminator: the capture loop that the iteration runs (line comment,
block comment, number, word or string, chosen as in `tokenize_step`) ends with
`buffer_index`, the length of the captured list, below the size of its
`char buffer[N]` (256 for comments and strings, 64 for numbers and words).
The other branches capture nothing. -/
def capture_fits (source : List Char) (index line_number : Nat) : Bool :=
  let c := charAt source index
  if isspace c then true
  else if c == '~' && charAt source (index + 1) == '~' then
    match line_comment_loop source (source.length + 1) (index + 2) [] with
    | none => false
    | some (_, buffer) => decide (buffer.length < 256)
  else if c == '~' && charAt source (index + 1) == '^' then
    match block_comment_loop source (source.length + 1) (index + 2) [] line_number with
    | none => false
    | some (_, buffer, _) => decide (buffer.length < 256)
  else if isdigit c then
    match number_loop source (source.length + 1) index [] false with
    | none => false
    | some (_, buffer, _) => decide (buffer.length < 64)
  else if isalpha c || c == '_' then
    match word_loop source (source.length + 1) index [] with
    | none => false
    | some (_, buffer) => decide (buffer.length < 64)
  else if c == '"' then
    match string_loop source (source.length + 1) (index + 1) [] line_number with
    | none => false
    | some (_, buffer, _) => decide (buffer.length < 256)
  else true

/-- The `while` loop of `tokenize` with the bookkeeping of the token array:
`capacity` is the C variable of that name.  The result tells whether the scan
stays within its buffers: every iteration satisfies `capture_fits`, a comment
token (stored without a capacity test) and the end marker (stored without a
capacity test) find `token_count < capacity`, and any other token is stored
after the test `token_count == capacity`, which doubles the capacity. -/
def within_bounds_loop (source : List Char) (length : Nat) :
    Nat → Nat → Nat → Nat → Nat → Bool
  | 0, _, _, _, _ => false
  | fuel + 1, index, line_number, token_count, capacity =>
    if index < length then
      capture_fits source index line_number &&
      match tokenize_step source index line_number with
      | none => false
      | some (none, index1, line1) =>
        within_bounds_loop source length fuel index1 line1 token_count capacity
      | some (some _, index1, line1) =>
        if charAt source index == '~' then
          decide (token_count < capacity) &&
            within_bounds_loop source length fuel index1 line1 (token_count + 1) capacity
        else
          within_bounds_loop source length fuel index1 line1 (token_count + 1)
            (if token_count == capacity then capacity * 2 else capacity)
    else decide (token_count < capacity)

/-- The scan of `source` by `tokenize` stays within the capture buffers and
within the token array, which starts with `capacity = 10`.  The embedding and
the C code run alike up to the first write that leaves a buffer or the array,
so the test, made iteration by iteration, is a test on the C code; on the
scans that pass it the lists of the embedding hold what the buffers and the
array of the C code hold. -/
def within_bounds (source : List Char) (line_number : Nat) : Bool :=
  within_bounds_loop source (strlen source) (source.length + 1) 0 line_number 0 10

/-! ## Basic facts about C strings -/

theorem charAt_of_length_le {source : List Char} {i : Nat} (h : source.length ≤ i) :
    charAt source i = NUL := by
  unfold charAt
  rw [List.getD_eq_getElem?_getD, List.getElem?_eq_none h]
  rfl

theorem lt_length_of_charAt_ne {source : List Char} {i : Nat} (h : charAt source i ≠ NUL) :
    i < source.length := by
  by_contra hlt
  exact h (charAt_of_length_le (not_lt.mp hlt))

theorem charAt_eq_getElem {source : List Char} {i : Nat} (h : i < source.length) :
    charAt source i = source[i] := by
  unfold charAt
  rw [List.getD_eq_getElem?_getD, List.getElem?_eq_getElem h]
  rfl

theorem strdup_drop_of_nul {lexeme : List Char} {k : Nat} (h : charAt lexeme k = NUL) :
    strdup (lexeme.drop k) = [] := by
  unfold strdup
  by_cases hk : k < lexeme.length
  · rw [List.drop_eq_getElem_cons hk, List.takeWhile_cons]
    rw [charAt_eq_getElem hk] at h
    simp [h]
  · rw [List.drop_eq_nil_of_le (not_lt.mp hk)]
    rfl

theorem strdup_drop_of_ne {lexeme : List Char} {k : Nat} (h : charAt lexeme k ≠ NUL) :
    strdup (lexeme.drop k) = charAt lexeme k :: strdup (lexeme.drop (k + 1)) := by
  have hk := lt_length_of_charAt_ne h
  unfold strdup
  rw [List.drop_eq_getElem_cons hk, List.takeWhile_cons]
  rw [charAt_eq_getElem hk] at h ⊢
  simp [h]

theorem MatchesAt.strdup_drop {lexeme : List Char} {k : Nat} {w : List Char}
    (h : MatchesAt lexeme k w) (hw : NUL ∉ w) : strdup (lexeme.drop k) = w := by
  induction h with
  | nil h0 => exact strdup_drop_of_nul h0
  | @cons k c w hc _ ih =>
    have hne : charAt lexeme k ≠ NUL := by
      rw [hc]; intro h0; exact hw (by simp [h0])
    rw [strdup_drop_of_ne hne, ih (fun hm => hw (List.mem_cons_of_mem _ hm)), hc]

theorem word_table_nul_free : ∀ e ∈ word_table, NUL ∉ e.1 := by decide

theorem word_table_mem_of_matches {lexeme w : List Char} {ty : TokenType} {text : List Char}
    (hm : MatchesAt lexeme 0 w) (he : (w, ty, text) ∈ word_table) :
    (strdup lexeme, ty, text) ∈ word_table := by
  have := hm.strdup_drop (word_table_nul_free _ he)
  rw [List.drop_zero] at this
  rw [this]
  exact he

/-! ## Case analysis of the two large switches -/

set_option maxHeartbeats 4000000 in
theorem word_switch_sound {lexeme : List Char} {ty : TokenType} {text : List Char}
    (h : word_switch lexeme = some (ty, text)) : (strdup lexeme, ty, text) ∈ word_table := by
  unfold word_switch at h
  dsimp only at h
  by_cases hb : charAt lexeme 0 = 'b'
  · rw [if_pos hb] at h
    repeat' split at h
    all_goals first
      | exact absurd h Option.noConfusion
      | (try casesm* _ ∧ _
         cases h
         apply word_table_mem_of_matches
         · repeat (first | (apply MatchesAt.nil; assumption) | (apply MatchesAt.cons; assumption))
         · decide)
  rw [if_neg hb] at h
  by_cases hc : charAt lexeme 0 = 'c'
  · rw [if_pos hc] at h
    repeat' split at h
    all_goals first
      | exact absurd h Option.noConfusion
      | (try casesm* _ ∧ _
         cases h
         apply word_table_mem_of_matches
         · repeat (first | (apply MatchesAt.nil; assumption) | (apply MatchesAt.cons; assumption))
         · decide)
  rw [if_neg hc] at h
  by_cases hd : charAt lexeme 0 = 'd'
  · rw [if_pos hd] at h
    repeat' split at h
    all_goals first
      | exact absurd h Option.noConfusion
      | (try casesm* _ ∧ _
         cases h
         apply word_table_mem_of_matches
         · repeat (first | (apply MatchesAt.nil; assumption) | (apply MatchesAt.cons; assumption))
         · decide)
  rw [if_neg hd] at h
  by_cases he : charAt lexeme 0 = 'e'
  · rw [if_pos he] at h
    repeat' split at h
    all_goals first
      | exact absurd h Option.noConfusion
      | (try casesm* _ ∧ _
         cases h
         apply word_table_mem_of_matches
         · repeat (first | (apply MatchesAt.nil; assumption) | (apply MatchesAt.cons; assumption))
         · decide)
  rw [if_neg he] at h
  by_cases hf : charAt lexeme 0 = 'f'
  · rw [if_pos hf] at h
    repeat' split at h
    all_goals first
      | exact absurd h Option.noConfusion
      | (try casesm* _ ∧ _
         cases h
         apply word_table_mem_of_matches
         · repeat (first | (apply MatchesAt.nil; assumption) | (apply MatchesAt.cons; assumption))
         · decide)
  rw [if_neg hf] at h
  by_cases hi : charAt lexeme 0 = 'i'
  · rw [if_pos hi] at h
    repeat' split at h
    all_goals first
      | exact absurd h Option.noConfusion
      | (try casesm* _ ∧ _
         cases h
         apply word_table_mem_of_matches
         · repeat (first | (apply MatchesAt.nil; assumption) | (apply MatchesAt.cons; assumption))
         · decide)
  rw [if_neg hi] at h
  by_cases hl : charAt lexeme 0 = 'l'
  · rw [if_pos hl] at h
    repeat' split at h
    all_goals first
      | exact absurd h Option.noConfusion
      | (try casesm* _ ∧ _
         cases h
         apply word_table_mem_of_matches
         · repeat (first | (apply MatchesAt.nil; assumption) | (apply MatchesAt.cons; assumption))
         · decide)
  rw [if_neg hl] at h
  by_cases hm : charAt lexeme 0 = 'm'
  · rw [if_pos hm] at h
    repeat' split at h
    all_goals first
      | exact absurd h Option.noConfusion
      | (try casesm* _ ∧ _
         cases h
         apply word_table_mem_of_matches
         · repeat (first | (apply MatchesAt.nil; assumption) | (apply MatchesAt.cons; assumption))
         · decide)
  rw [if_neg hm] at h
  by_cases hn : charAt lexeme 0 = 'n'
  · rw [if_pos hn] at h
    repeat' split at h
    all_goals first
      | exact absurd h Option.noConfusion
      | (try casesm* _ ∧ _
         cases h
         apply word_table_mem_of_matches
         · repeat (first | (apply MatchesAt.nil; assumption) | (apply MatchesAt.cons; assumption))
         · decide)
  rw [if_neg hn] at h
  by_cases hr : charAt lexeme 0 = 'r'
  · rw [if_pos hr] at h
    repeat' split at h
    all_goals first
      | exact absurd h Option.noConfusion
      | (try casesm* _ ∧ _
         cases h
         apply word_table_mem_of_matches
         · repeat (first | (apply MatchesAt.nil; assumption) | (apply MatchesAt.cons; assumption))
         · decide)
  rw [if_neg hr] at h
  by_cases hs : charAt lexeme 0 = 's'
  · rw [if_pos hs] at h
    repeat' split at h
    all_goals first
      | exact absurd h Option.noConfusion
      | (try casesm* _ ∧ _
         cases h
         apply word_table_mem_of_matches
         · repeat (first | (apply MatchesAt.nil; assumption) | (apply MatchesAt.cons; assumption))
         · decide)
  rw [if_neg hs] at h
  by_cases ht : charAt lexeme 0 = 't'
  · rw [if_pos ht] at h
    repeat' split at h
    all_goals first
      | exact absurd h Option.noConfusion
      | (try casesm* _ ∧ _
         cases h
         apply word_table_mem_of_matches
         · repeat (first | (apply MatchesAt.nil; assumption) | (apply MatchesAt.cons; assumption))
         · decide)
  rw [if_neg ht] at h
  by_cases hv : charAt lexeme 0 = 'v'
  · rw [if_pos hv] at h
    repeat' split at h
    all_goals first
      | exact absurd h Option.noConfusion
      | (try casesm* _ ∧ _
         cases h
         apply word_table_mem_of_matches
         · repeat (first | (apply MatchesAt.nil; assumption) | (apply MatchesAt.cons; assumption))
         · decide)
  rw [if_neg hv] at h
  by_cases hw : charAt lexeme 0 = 'w'
  · rw [if_pos hw] at h
    repeat' split at h
    all_goals first
      | exact absurd h Option.noConfusion
      | (try casesm* _ ∧ _
         cases h
         apply word_table_mem_of_matches
         · repeat (first | (apply MatchesAt.nil; assumption) | (apply MatchesAt.cons; assumption))
         · decide)
  rw [if_neg hw] at h
  exact absurd h Option.noConfusion

theorem classify_operator_cases (source : List Char) (index line : Nat)
    (r : Option Token × Nat) (hr : classify_operator source index line = r) :
    (∃ ty, ([charAt source index, charAt source (index + 1)], ty) ∈ two_char_operators ∧
        r = (some ⟨ty, [charAt source index, charAt source (index + 1)], line⟩, index + 2)) ∨
    (∃ ty, ([charAt source index], ty) ∈ one_char_operators ∧
        (∀ ty2, ([charAt source index, charAt source (index + 1)], ty2) ∉ two_char_operators) ∧
        r = (some ⟨ty, [charAt source index], line⟩, index + 1)) ∨
    ((charAt source index = '&' ∨ charAt source index = '|') ∧
        charAt source (index + 1) ≠ charAt source index ∧ r = (none, index + 1)) ∨
    (charAt source index ∉ operator_chars ∧
        r = (some (create_token TOKEN_UNKNOWN [charAt source index, NUL] line), index + 1)) := by
  unfold classify_operator at hr
  dsimp only at hr
  by_cases hc : charAt source index = '<'
  · rw [if_pos hc] at hr
    by_cases hn : charAt source (index + 1) = '='
    · rw [if_pos hn] at hr
      subst hr
      left
      refine ⟨TOKEN_BOOLEAN_OPERATOR_RELATIONAL, ?_, ?_⟩
      · simp [two_char_operators, hc, hn]
      · rw [hc, hn]; rfl
    rw [if_neg hn] at hr
    subst hr
    right; left
    refine ⟨TOKEN_BOOLEAN_OPERATOR_RELATIONAL, ?_, ?_, ?_⟩
    · simp [one_char_operators, hc]
    · intro ty2
      simp [two_char_operators, hc, *]
    · rw [hc]; rfl
  rw [if_neg hc] at hr
  rename' hc => h0
  by_cases hc : charAt source index = '>'
  · rw [if_pos hc] at hr
    by_cases hn : charAt source (index + 1) = '='
    · rw [if_pos hn] at hr
      subst hr
      left
      refine ⟨TOKEN_BOOLEAN_OPERATOR_RELATIONAL, ?_, ?_⟩
      · simp [two_char_operators, hc, hn]
      · rw [hc, hn]; rfl
    rw [if_neg hn] at hr
    subst hr
    right; left
    refine ⟨TOKEN_BOOLEAN_OPERATOR_RELATIONAL, ?_, ?_, ?_⟩
    · simp [one_char_operators, hc]
    · intro ty2
      simp [two_char_operators, hc, *]
    · rw [hc]; rfl
  rw [if_neg hc] at hr
  rename' hc => h1
  by_cases hc : charAt source index = '='
  · rw [if_pos hc] at hr
    by_cases hn : charAt source (index + 1) = '='
    · rw [if_pos hn] at hr
      subst hr
      left
      refine ⟨TOKEN_BOOLEAN_OPERATOR_RELATIONAL, ?_, ?_⟩
      · simp [two_char_operators, hc, hn]
      · rw [hc, hn]; rfl
    rw [if_neg hn] at hr
    subst hr
    right; left
    refine ⟨TOKEN_ASSIGNMENT_OPERATOR, ?_, ?_, ?_⟩
    · simp [one_char_operators, hc]
    · intro ty2
      simp [two_char_operators, hc, *]
    · rw [hc]; rfl
  rw [if_neg hc] at hr
  rename' hc => h2
  by_cases hc : charAt source index = '!'
  · rw [if_pos hc] at hr
    by_cases hn : charAt source (index + 1) = '='
    · rw [if_pos hn] at hr
      subst hr
      left
      refine ⟨TOKEN_BOOLEAN_OPERATOR_RELATIONAL, ?_, ?_⟩
      · simp [two_char_operators, hc, hn]
      · rw [hc, hn]; rfl
    rw [if_neg hn] at hr
    subst hr
    right; left
    refine ⟨TOKEN_BOOLEAN_OPERATOR_LOGICAL, ?_, ?_, ?_⟩
    · simp [one_char_operators, hc]
    · intro ty2
      simp [two_char_operators, hc, *]
    · rw [hc]; rfl
  rw [if_neg hc] at hr
  rename' hc => h3
  by_cases hc : charAt source index = '&'
  · rw [if_pos hc] at hr
    by_cases hn : charAt source (index + 1) = '&'
    · rw [if_pos hn] at hr
      subst hr
      left
      refine ⟨TOKEN_BOOLEAN_OPERATOR_LOGICAL, ?_, ?_⟩
      · simp [two_char_operators, hc, hn]
      · rw [hc, hn]; rfl
    rw [if_neg hn] at hr
    subst hr
    right; right; left
    refine ⟨by simp [hc], ?_, rfl⟩
    rw [hc]; exact hn
  rw [if_neg hc] at hr
  rename' hc => h4
  by_cases hc : charAt source index = '|'
  · rw [if_pos hc] at hr
    by_cases hn : charAt source (index + 1) = '|'
    · rw [if_pos hn] at hr
      subst hr
      left
      refine ⟨TOKEN_BOOLEAN_OPERATOR_LOGICAL, ?_, ?_⟩
      · simp [two_char_operators, hc, hn]
      · rw [hc, hn]; rfl
    rw [if_neg hn] at hr
    subst hr
    right; right; left
    refine ⟨by simp [hc], ?_, rfl⟩
    rw [hc]; exact hn
  rw [if_neg hc] at hr
  rename' hc => h5
  by_cases hc : charAt source index = '+'
  · rw [if_pos hc] at hr
    by_cases hn : charAt source (index + 1) = '='
    · rw [if_pos hn] at hr
      subst hr
      left
      refine ⟨TOKEN_ASSIGNMENT_OPERATOR, ?_, ?_⟩
      · simp [two_char_operators, hc, hn]
      · rw [hc, hn]; rfl
    rw [if_neg hn] at hr
    by_cases hn1 : charAt source (index + 1) = '+'
    · rw [if_pos hn1] at hr
      subst hr
      left
      refine ⟨TOKEN_UNARY_OPERATOR, ?_, ?_⟩
      · simp [two_char_operators, hc, hn1]
      · rw [hc, hn1]; rfl
    rw [if_neg hn1] at hr
    subst hr
    right; left
    refine ⟨TOKEN_ARITHMETIC_OPERATOR, ?_, ?_, ?_⟩
    · simp [one_char_operators, hc]
    · intro ty2
      simp [two_char_operators, hc, *]
    · rw [hc]; rfl
  rw [if_neg hc] at hr
  rename' hc => h6
  by_cases hc : charAt source index = '-'
  · rw [if_pos hc] at hr
    by_cases hn : charAt source (index + 1) = '='
    · rw [if_pos hn] at hr
      subst hr
      left
      refine ⟨TOKEN_ASSIGNMENT_OPERATOR, ?_, ?_⟩
      · simp [two_char_operators, hc, hn]
      · rw [hc, hn]; rfl
    rw [if_neg hn] at hr
    by_cases hn1 : charAt source (index + 1) = '-'
    · rw [if_pos hn1] at hr
      subst hr
      left
      refine ⟨TOKEN_UNARY_OPERATOR, ?_, ?_⟩
      · simp [two_char_operators, hc, hn1]
      · rw [hc, hn1]; rfl
    rw [if_neg hn1] at hr
    subst hr
    right; left
    refine ⟨TOKEN_ARITHMETIC_OPERATOR, ?_, ?_, ?_⟩
    · simp [one_char_operators, hc]
    · intro ty2
      simp [two_char_operators, hc, *]
    · rw [hc]; rfl
  rw [if_neg hc] at hr
  rename' hc => h7
  by_cases hc : charAt source index = '*'
  · rw [if_pos hc] at hr
    by_cases hn : charAt source (index + 1) = '='
    · rw [if_pos hn] at hr
      subst hr
      left
      refine ⟨TOKEN_ASSIGNMENT_OPERATOR, ?_, ?_⟩
      · simp [two_char_operators, hc, hn]
      · rw [hc, hn]; rfl
    rw [if_neg hn] at hr
    subst hr
    right; left
    refine ⟨TOKEN_ARITHMETIC_OPERATOR, ?_, ?_, ?_⟩
    · simp [one_char_operators, hc]
    · intro ty2
      simp [two_char_operators, hc, *]
    · rw [hc]; rfl
  rw [if_neg hc] at hr
  rename' hc => h8
  by_cases hc : charAt source index = '/'
  · rw [if_pos hc] at hr
    by_cases hn : charAt source (index + 1) = '='
    · rw [if_pos hn] at hr
      subst hr
      left
      refine ⟨TOKEN_ASSIGNMENT_OPERATOR, ?_, ?_⟩
      · simp [two_char_operators, hc, hn]
      · rw [hc, hn]; rfl
    rw [if_neg hn] at hr
    subst hr
    right; left
    refine ⟨TOKEN_ARITHMETIC_OPERATOR, ?_, ?_, ?_⟩
    · simp [one_char_operators, hc]
    · intro ty2
      simp [two_char_operators, hc, *]
    · rw [hc]; rfl
  rw [if_neg hc] at hr
  rename' hc => h9
  by_cases hc : charAt source index = '$'
  · rw [if_pos hc] at hr
    by_cases hn : charAt source (index + 1) = '='
    · rw [if_pos hn] at hr
      subst hr
      left
      refine ⟨TOKEN_ASSIGNMENT_OPERATOR, ?_, ?_⟩
      · simp [two_char_operators, hc, hn]
      · rw [hc, hn]; rfl
    rw [if_neg hn] at hr
    subst hr
    right; left
    refine ⟨TOKEN_ARITHMETIC_OPERATOR, ?_, ?_, ?_⟩
    · simp [one_char_operators, hc]
    · intro ty2
      simp [two_char_operators, hc, *]
    · rw [hc]; rfl
  rw [if_neg hc] at hr
  rename' hc => h10
  by_cases hc : charAt source index = '%'
  · rw [if_pos hc] at hr
    by_cases hn : charAt source (index + 1) = '='
    · rw [if_pos hn] at hr
      subst hr
      left
      refine ⟨TOKEN_ASSIGNMENT_OPERATOR, ?_, ?_⟩
      · simp [two_char_operators, hc, hn]
      · rw [hc, hn]; rfl
    rw [if_neg hn] at hr
    subst hr
    right; left
    refine ⟨TOKEN_ARITHMETIC_OPERATOR, ?_, ?_, ?_⟩
    · simp [one_char_operators, hc]
    · intro ty2
      simp [two_char_operators, hc, *]
    · rw [hc]; rfl
  rw [if_neg hc] at hr
  rename' hc => h11
  by_cases hc : charAt source index = '^'
  · rw [if_pos hc] at hr
    subst hr
    right; left
    refine ⟨TOKEN_ARITHMETIC_OPERATOR, ?_, ?_, ?_⟩
    · simp [one_char_operators, hc]
    · intro ty2
      simp [two_char_operators, hc, *]
    · rw [hc]; rfl
  rw [if_neg hc] at hr
  rename' hc => h12
  subst hr
  right; right; right
  refine ⟨?_, rfl⟩
  simp [operator_chars, *]

/-! ## Termination and progress of the loops -/

theorem strlen_le_length (s : List Char) : strlen s ≤ s.length := by
  unfold strlen
  exact (List.takeWhile_sublist _).length_le

theorem number_loop_some (source : List Char) :
    ∀ (fuel index : Nat) (buffer : List Char) (hd : Bool),
      source.length - index < fuel →
      ∃ i b d, number_loop source fuel index buffer hd = some (i, b, d) ∧ index ≤ i ∧
        (index ≤ source.length → i ≤ source.length) := by
  intro fuel
  induction fuel with
  | zero => intro index buffer hd h; omega
  | succ fuel ih =>
    intro index buffer hd h
    rw [number_loop]
    split
    · rename_i hc
      have hlt : index < source.length := by
        apply lt_length_of_charAt_ne
        intro h0
        rw [h0] at hc
        revert hc
        cases hd <;> decide
      obtain ⟨i, b, d, he, h1, h2⟩ := ih (index + 1) (buffer ++ [charAt source index])
        (if charAt source index == '.' then true else hd) (by omega)
      exact ⟨i, b, d, he, by omega, fun _ => h2 (by omega)⟩
    · exact ⟨index, buffer, hd, rfl, le_refl _, fun h => h⟩

theorem string_loop_some (source : List Char) :
    ∀ (fuel index : Nat) (buffer : List Char) (line : Nat),
      source.length - index < fuel →
      ∃ i b l, string_loop source fuel index buffer line = some (i, b, l) ∧ index ≤ i ∧
        (index ≤ source.length → i ≤ source.length) := by
  intro fuel
  induction fuel with
  | zero => intro index buffer line h; omega
  | succ fuel ih =>
    intro index buffer line h
    rw [string_loop]
    split
    · rename_i hc
      have hlt : index < source.length := by
        apply lt_length_of_charAt_ne
        intro h0
        rw [h0] at hc
        revert hc
        decide
      obtain ⟨i, b, l, he, h1, h2⟩ := ih (index + 1) (buffer ++ [charAt source index])
        (if charAt source index == '\n' then line + 1 else line) (by omega)
      exact ⟨i, b, l, he, by omega, fun _ => h2 (by omega)⟩
    · exact ⟨index, buffer, line, rfl, le_refl _, fun h => h⟩

theorem line_comment_loop_some (source : List Char) :
    ∀ (fuel index : Nat) (buffer : List Char),
      source.length - index < fuel →
      ∃ i b, line_comment_loop source fuel index buffer = some (i, b) ∧ index ≤ i ∧
        (index ≤ source.length → i ≤ source.length) := by
  intro fuel
  induction fuel with
  | zero => intro index buffer h; omega
  | succ fuel ih =>
    intro index buffer h
    rw [line_comment_loop]
    split
    · rename_i hc
      have hlt : index < source.length := by
        apply lt_length_of_charAt_ne
        intro h0
        rw [h0] at hc
        revert hc
        decide
      obtain ⟨i, b, he, h1, h2⟩ := ih (index + 1) (buffer ++ [charAt source index]) (by omega)
      exact ⟨i, b, he, by omega, fun _ => h2 (by omega)⟩
    · exact ⟨index, buffer, rfl, le_refl _, fun h => h⟩

theorem block_comment_loop_some (source : List Char) :
    ∀ (fuel index : Nat) (buffer : List Char) (line : Nat),
      source.length - index < fuel →
      ∃ i b l, block_comment_loop source fuel index buffer line = some (i, b, l) ∧ index ≤ i ∧
        (index ≤ source.length → i ≤ source.length) := by
  intro fuel
  induction fuel with
  | zero => intro index buffer line h; omega
  | succ fuel ih =>
    intro index buffer line h
    rw [block_comment_loop]
    split
    · rename_i hc
      have hlt : index < source.length := by
        apply lt_length_of_charAt_ne
        intro h0
        rw [h0] at hc
        simp at hc
      split
      · obtain ⟨i, b, l, he, h1, h2⟩ := ih (index + 1) (buffer ++ [' ']) (line + 1) (by omega)
        exact ⟨i, b, l, he, by omega, fun _ => h2 (by omega)⟩
      · obtain ⟨i, b, l, he, h1, h2⟩ := ih (index + 1) (buffer ++ [charAt source index]) line
          (by omega)
        exact ⟨i, b, l, he, by omega, fun _ => h2 (by omega)⟩
    · exact ⟨index, buffer, line, rfl, le_refl _, fun h => h⟩

theorem word_loop_some (source : List Char) :
    ∀ (fuel index : Nat) (buffer : List Char),
      source.length - index < fuel →
      ∃ i b, word_loop source fuel index buffer = some (i, b) ∧ index ≤ i ∧
        (index ≤ source.length → i ≤ source.length) := by
  intro fuel
  induction fuel with
  | zero => intro index buffer h; omega
  | succ fuel ih =>
    intro index buffer h
    rw [word_loop]
    split
    · rename_i hc
      have hlt : index < source.length := by
        apply lt_length_of_charAt_ne
        intro h0
        rw [h0] at hc
        revert hc
        decide
      obtain ⟨i, b, he, h1, h2⟩ := ih (index + 1) (buffer ++ [charAt source index]) (by omega)
      exact ⟨i, b, he, by omega, fun _ => h2 (by omega)⟩
    · exact ⟨index, buffer, rfl, le_refl _, fun h => h⟩
theorem create_token_type (ty : TokenType) (v : List Char) (l : Nat) :
    (create_token ty v l).type = ty := rfl

theorem isdigit_lt_length {source : List Char} {index : Nat}
    (h : isdigit (charAt source index) = true) : index < source.length := by
  apply lt_length_of_charAt_ne
  intro h0
  rw [h0] at h
  revert h
  decide

theorem classify_number_progress (source : List Char) (index line : Nat)
    (hd : isdigit (charAt source index) = true) :
    ∃ tok i, classify_number source index line = some (tok, i) ∧ index < i ∧
      i ≤ source.length ∧ tok.type ≠ TOKEN_EOF := by
  have hlt := isdigit_lt_length hd
  unfold classify_number
  rw [number_loop]
  simp only [hd, Bool.true_or, if_true]
  obtain ⟨i, b, d, he, h1, h2⟩ := number_loop_some source source.length (index + 1)
    ([] ++ [charAt source index]) (if charAt source index == '.' then true else false) (by omega)
  rw [he]
  refine ⟨_, _, rfl, by omega, h2 (by omega), ?_⟩
  rw [create_token_type]
  cases d <;> simp

theorem word_loop_progress (source : List Char) (index : Nat)
    (hc : (isalpha (charAt source index) || charAt source index == '_') = true) :
    ∃ i b, word_loop source (source.length + 1) index [] = some (i, b) ∧ index < i ∧
      i ≤ source.length := by
  have hlt : index < source.length := by
    apply lt_length_of_charAt_ne
    intro h0
    rw [h0] at hc
    revert hc
    decide
  have hc2 : (isalnum (charAt source index) || charAt source index == '_') = true := by
    unfold isalnum
    rw [Bool.or_eq_true] at hc ⊢
    rcases hc with h | h
    · left; simp [h]
    · right; exact h
  rw [word_loop]
  simp only [hc2, if_true]
  obtain ⟨i, b, he, h1, h2⟩ := word_loop_some source source.length (index + 1)
    ([] ++ [charAt source index]) (by omega)
  exact ⟨i, b, he, by omega, h2 (by omega)⟩

theorem classify_word_type_ne_EOF (lexeme : List Char) (line : Nat) :
    (classify_word lexeme line).type ≠ TOKEN_EOF := by
  unfold classify_word
  split
  · rename_i ty text h
    have hm := word_switch_sound h
    simp [word_table] at hm
    rw [create_token_type]
    rcases hm with h | h | h | h | h | h | h | h | h | h | h | h | h | h | h | h | h | h | h | h
      | h | h | h | h | h <;> simp [h.2.1]
  · simp [create_token_type]

theorem classify_string_progress (source : List Char) (index line : Nat)
    (hlt : index < source.length) :
    ∃ tok i l, classify_string source index line = some (tok, i, l) ∧ index < i ∧
      i ≤ source.length ∧ tok.type ≠ TOKEN_EOF := by
  unfold classify_string
  obtain ⟨i, b, l, he, h1, h2⟩ := string_loop_some source (source.length + 1) (index + 1) [] line
    (by omega)
  rw [he]
  refine ⟨_, _, _, rfl, ?_, ?_, by simp [create_token_type]⟩
  · split <;> omega
  · split
    · rename_i hq
      have : i < source.length := by
        apply lt_length_of_charAt_ne
        intro h0
        rw [h0] at hq
        revert hq
        decide
      omega
    · exact h2 (by omega)

theorem classify_character_progress (source : List Char) (index line : Nat)
    (hq : charAt source index = '\'') :
    index < (classify_character source index line).2 ∧
      (classify_character source index line).2 ≤ source.length ∧
      ∀ t, (classify_character source index line).1 = some t → t.type ≠ TOKEN_EOF := by
  have hlt : index < source.length := by
    apply lt_length_of_charAt_ne
    rw [hq]
    decide
  unfold classify_character
  simp only [hq, bne_self_eq_false, Bool.false_eq_true, if_false]
  split
  · refine ⟨by simp, by simpa using hlt, by simp⟩
  · rename_i h1
    have hlt1 : index + 1 < source.length := by
      apply lt_length_of_charAt_ne
      intro h0
      rw [h0] at h1
      simp at h1
    split
    · refine ⟨by simp, by simpa using hlt1, by simp⟩
    · rename_i h2
      have hlt2 : index + 2 < source.length := by
        apply lt_length_of_charAt_ne
        intro h0
        rw [h0] at h2
        revert h2
        decide
      refine ⟨by simp, by simpa using hlt2, ?_⟩
      intro t ht
      simp only [Option.some.injEq] at ht
      rw [← ht, create_token_type]
      simp

theorem mem_two_char_next_ne_NUL {c n : Char} {ty : TokenType}
    (h : ([c, n], ty) ∈ two_char_operators) : n ≠ NUL := by
  intro h0
  subst h0
  simp [two_char_operators] at h
  rcases h with h | h | h | h | h | h | h | h | h | h | h | h | h | h <;>
    exact absurd h.1.2 (by decide)

theorem classify_operator_progress (source : List Char) (index line : Nat)
    (hlt : index < source.length) :
    index < (classify_operator source index line).2 ∧
      (classify_operator source index line).2 ≤ source.length ∧
      ∀ t, (classify_operator source index line).1 = some t → t.type ≠ TOKEN_EOF := by
  rcases classify_operator_cases source index line _ rfl with
    ⟨ty, hm, hr⟩ | ⟨ty, hm, _, hr⟩ | ⟨_, _, hr⟩ | ⟨_, hr⟩
  · rw [hr]
    have h2 : index + 1 < source.length :=
      lt_length_of_charAt_ne (mem_two_char_next_ne_NUL hm)
    refine ⟨by simp, by simpa using h2, ?_⟩
    intro t ht
    simp only [Option.some.injEq] at ht
    subst ht
    intro h0
    simp only at h0
    subst h0
    revert hm
    simp [two_char_operators]
  · rw [hr]
    refine ⟨by simp, by simpa using hlt, ?_⟩
    intro t ht
    simp only [Option.some.injEq] at ht
    subst ht
    intro h0
    simp only at h0
    subst h0
    revert hm
    simp [one_char_operators]
  · rw [hr]
    exact ⟨by simp, by simpa using hlt, by simp⟩
  · rw [hr]
    refine ⟨by simp, by simpa using hlt, ?_⟩
    intro t ht
    simp only [Option.some.injEq] at ht
    rw [← ht, create_token_type]
    simp
theorem classify_delimiter_type_ne_EOF (c : Char) (line : Nat) :
    (classify_delimiter c line).type ≠ TOKEN_EOF := by
  unfold classify_delimiter
  repeat' split
  all_goals simp [create_token_type]

theorem classify_comment_progress (source : List Char) (index line : Nat) :
    ∃ tok i l, classify_comment source index line = some (tok, i, l) ∧
      ((tok = none ∧ i = index ∧ l = line) ∨
        (∃ t, tok = some t ∧ t.type = TOKEN_COMMENT ∧ index < i ∧ i ≤ source.length)) := by
  unfold classify_comment
  dsimp only
  split
  · rename_i h
    have h1 : index + 1 < source.length := by
      apply lt_length_of_charAt_ne
      intro h0
      rw [h0] at h
      simp at h
      exact absurd h.2 (by decide)
    obtain ⟨i, b, he, hi1, hi2⟩ := line_comment_loop_some source (source.length + 1) (index + 2) []
      (by omega)
    rw [he]
    exact ⟨_, _, _, rfl, Or.inr ⟨_, rfl, rfl, by omega, hi2 (by omega)⟩⟩
  · split
    · rename_i h
      have h1 : index + 1 < source.length := by
        apply lt_length_of_charAt_ne
        intro h0
        rw [h0] at h
        simp at h
        exact absurd h.2 (by decide)
      obtain ⟨i, b, l, he, hi1, hi2⟩ := block_comment_loop_some source (source.length + 1)
        (index + 2) [] line (by omega)
      rw [he]
      refine ⟨_, _, _, rfl, Or.inr ⟨_, rfl, rfl, ?_, ?_⟩⟩
      · split <;> omega
      · split
        · rename_i hq
          have : i + 1 < source.length := by
            apply lt_length_of_charAt_ne
            intro h0
            rw [h0] at hq
            simp at hq
            exact absurd hq.2 (by decide)
          omega
        · exact hi2 (by omega)
    · exact ⟨_, _, _, rfl, Or.inl ⟨rfl, rfl, rfl⟩⟩

theorem dispatch_progress (source : List Char) (index line : Nat)
    (hlt : index < source.length) :
    ∃ tok i l, dispatch source (charAt source index) index line = some (tok, i, l) ∧
      index < i ∧ i ≤ source.length ∧ ∀ t, tok = some t → t.type ≠ TOKEN_EOF := by
  unfold dispatch
  split
  · rename_i hd
    obtain ⟨tok, i, he, h1, h2, h3⟩ := classify_number_progress source index line hd
    rw [he]
    exact ⟨_, _, _, rfl, h1, h2, fun t ht => by cases ht; exact h3⟩
  · split
    · rename_i hw
      obtain ⟨i, b, he, h1, h2⟩ := word_loop_progress source index hw
      rw [he]
      exact ⟨_, _, _, rfl, h1, h2,
        fun t ht => by cases ht; exact classify_word_type_ne_EOF _ _⟩
    · split
      · obtain ⟨h1, h2, h3⟩ := classify_operator_progress source index line hlt
        exact ⟨_, _, _, rfl, h1, h2, h3⟩
      · split
        · exact ⟨_, _, _, rfl, by omega, by omega,
            fun t ht => by cases ht; exact classify_delimiter_type_ne_EOF _ _⟩
        · split
          · obtain ⟨tok, i, l, he, h1, h2, h3⟩ := classify_string_progress source index line hlt
            rw [he]
            exact ⟨_, _, _, rfl, h1, h2, fun t ht => by cases ht; exact h3⟩
          · split
            · rename_i hq
              obtain ⟨h1, h2, h3⟩ := classify_character_progress source index line
                (by simpa using hq)
              exact ⟨_, _, _, rfl, h1, h2, h3⟩
            · exact ⟨_, _, _, rfl, by omega, by omega, fun t ht => by cases ht⟩

/-- Every iteration of the driver loop returns, moves the index forward
without passing the end of the source, and stores no end marker. -/
theorem tokenize_step_progress (source : List Char) (index line : Nat)
    (hlt : index < source.length) :
    ∃ tok i l, tokenize_step source index line = some (tok, i, l) ∧
      index < i ∧ i ≤ source.length ∧ ∀ t, tok = some t → t.type ≠ TOKEN_EOF := by
  unfold tokenize_step
  dsimp only
  split
  · exact ⟨_, _, _, rfl, by omega, by omega, fun t ht => by cases ht⟩
  · by_cases htl : charAt source index = '~'
    · obtain ⟨tok, i, l, he, hcase⟩ := classify_comment_progress source index line
      simp only [htl, beq_self_eq_true, if_true] at he ⊢
      rw [he]
      rcases hcase with ⟨h1, h2, h3⟩ | ⟨t, h1, h2, h3, h4⟩
      · subst h1 h2 h3
        dsimp only
        have := dispatch_progress source i l hlt
        rw [htl] at this
        exact this
      · subst h1
        exact ⟨_, _, _, rfl, h3, h4, fun t' ht => by cases ht; simp [h2]⟩
    · have hb : (charAt source index == '~') = false := by simpa using htl
      simp only [hb, Bool.false_eq_true, if_false]
      exact dispatch_progress source index line hlt
theorem tokenize_loop_some (source : List Char) (length : Nat) (hlen : length ≤ source.length) :
    ∀ (fuel index line : Nat) (tokens : List Token) (count : Nat),
      source.length - index < fuel →
      ∃ toks last_line,
        tokenize_loop source length fuel index line tokens count =
          some (tokens ++ toks ++ [⟨TOKEN_EOF, "EOF".toList, last_line⟩],
            count + toks.length, last_line) ∧
        ∀ t ∈ toks, t.type ≠ TOKEN_EOF := by
  intro fuel
  induction fuel with
  | zero => intro index line tokens count h; omega
  | succ fuel ih =>
    intro index line tokens count h
    rw [tokenize_loop]
    split
    · rename_i hlt
      obtain ⟨tok, i, l, he, h1, h2, h3⟩ :=
        tokenize_step_progress source index line (by omega)
      rw [he]
      cases tok with
      | none =>
        dsimp only
        exact ih i l tokens count (by omega)
      | some t =>
        dsimp only
        obtain ⟨toks, last, hr, hne⟩ := ih i l (tokens ++ [t]) (count + 1) (by omega)
        refine ⟨t :: toks, last, ?_, ?_⟩
        · rw [hr]
          simp [Nat.add_assoc, Nat.add_comm 1]
        · intro x hx
          rcases List.mem_cons.mp hx with rfl | hx
          · exact h3 _ rfl
          · exact hne x hx
    · exact ⟨[], line, by simp [create_token, strdup]; decide, by simp⟩

/-- At a position holding `&` not followed by `&`, or `|` not followed by
`|`, `classify_operator` returns `NULL` and has consumed one character. -/
theorem classify_operator_lone (source : List Char) (index line : Nat)
    (h : (charAt source index = '&' ∧ charAt source (index + 1) ≠ '&') ∨
      (charAt source index = '|' ∧ charAt source (index + 1) ≠ '|')) :
    classify_operator source index line = (none, index + 1) := by
  unfold classify_operator
  dsimp only
  rcases h with ⟨hc, hn⟩ | ⟨hc, hn⟩
  · rw [hc]
    simp [hn]
  · rw [hc]
    simp [hn]

/-- C2 (the code at the failing input). On `a&b` the lone `&` produces no
token at all: `tokenize` returns IDENTIFIER "a", IDENTIFIER "b", EOF, and
`classify_operator` at the `&` returns `NULL` with the index advanced by one,
where the claim has an UNKNOWN token "&". -/
theorem tokenize_lone_ampersand :
    tokenize "a&b".toList 1 =
        some ([⟨TOKEN_IDENTIFIER, "a".toList, 1⟩, ⟨TOKEN_IDENTIFIER, "b".toList, 1⟩,
               ⟨TOKEN_EOF, "EOF".toList, 1⟩], 2, 1) ∧
      classify_operator "a&b".toList 1 1 = (none, 2) := by
  decide

/-! ## C3: the vocabulary of `classify_word` -/

theorem strdup_eq_self {s : List Char} (h : NUL ∉ s) : strdup s = s := by
  unfold strdup
  rw [List.takeWhile_eq_self_iff]
  intro c hc
  simp only [bne_iff_ne, ne_eq]
  intro h0
  exact h (h0 ▸ hc)

theorem NUL_not_mem_of_word_chars {lexeme : List Char}
    (h : ∀ c ∈ lexeme, is_word_char c = true) : NUL ∉ lexeme := by
  intro hm
  have := h NUL hm
  revert this
  decide

set_option maxRecDepth 100000 in
theorem word_table_types :
    ∀ e ∈ word_table,
      (e.2.1 = TOKEN_KEYWORD ↔ e.1 ∈ keywords) ∧
      (e.2.1 = TOKEN_RESERVED_WORD ↔ e.1 ∈ reserved_words) ∧
      (e.2.1 = TOKEN_NOISE_WORD ↔ e.1 ∈ noise_words) := by
  decide

set_option maxRecDepth 100000 in
theorem word_switch_complete :
    ∀ w ∈ keywords ++ reserved_words ++ noise_words, word_switch w ≠ none := by
  decide
/-- C3. For every lexeme that is a non-empty run of letters, digits and
underscores shorter than 64 characters, `classify_word` returns KEYWORD
exactly for the eleven keywords, RESERVED_WORD exactly for the ten reserved
words, NOISE_WORD exactly for the four noise words, all by exact
case-sensitive spelling, and otherwise the IDENTIFIER token whose text is the
lexeme. -/
theorem classify_word_agrees_with_vocabulary (lexeme : List Char) (line_number : Nat)
    (_hne : lexeme ≠ []) (hchars : ∀ c ∈ lexeme, is_word_char c = true)
    (_hlen : lexeme.length < 64) :
    ((classify_word lexeme line_number).type = TOKEN_KEYWORD ↔ lexeme ∈ keywords) ∧
    ((classify_word lexeme line_number).type = TOKEN_RESERVED_WORD ↔
      lexeme ∈ reserved_words) ∧
    ((classify_word lexeme line_number).type = TOKEN_NOISE_WORD ↔ lexeme ∈ noise_words) ∧
    (lexeme ∉ keywords → lexeme ∉ reserved_words → lexeme ∉ noise_words →
      classify_word lexeme line_number = ⟨TOKEN_IDENTIFIER, lexeme, line_number⟩) := by
  have hnul := NUL_not_mem_of_word_chars hchars
  have hdup := strdup_eq_self hnul
  unfold classify_word
  split
  · rename_i ty text h
    have hm := word_switch_sound h
    rw [hdup] at hm
    obtain ⟨h1, h2, h3⟩ := word_table_types _ hm
    simp only [create_token_type]
    refine ⟨h1, h2, h3, ?_⟩
    intro n1 n2 n3
    exfalso
    have hty : ty = TOKEN_KEYWORD ∨ ty = TOKEN_RESERVED_WORD ∨ ty = TOKEN_NOISE_WORD := by
      have := word_switch_sound h
      simp [word_table] at this
      rcases this with h | h | h | h | h | h | h | h | h | h | h | h | h | h | h | h | h | h
        | h | h | h | h | h | h | h <;> simp [h.2.1]
    rcases hty with e | e | e
    · exact n1 (h1.mp e)
    · exact n2 (h2.mp e)
    · exact n3 (h3.mp e)
  · rename_i h
    have hnot : lexeme ∉ keywords ++ reserved_words ++ noise_words :=
      fun hm => word_switch_complete _ hm h
    simp only [List.mem_append, not_or] at hnot
    simp only [create_token_type]
    refine ⟨⟨(fun e => nomatch e), fun hm => absurd hm hnot.1.1⟩,
      ⟨(fun e => nomatch e), fun hm => absurd hm hnot.1.2⟩,
      ⟨(fun e => nomatch e), fun hm => absurd hm hnot.2⟩, ?_⟩
    intro _ _ _
    simp only [create_token, hdup]

/-- Witness for C3: `Break`, `iff`, `d`, `int` and `breaks` are identifiers,
and `break` is a keyword. -/
theorem classify_word_agrees_with_vocabulary_witness :
    classify_word "Break".toList 1 = ⟨TOKEN_IDENTIFIER, "Break".toList, 1⟩ ∧
    classify_word "iff".toList 1 = ⟨TOKEN_IDENTIFIER, "iff".toList, 1⟩ ∧
    classify_word "d".toList 1 = ⟨TOKEN_IDENTIFIER, "d".toList, 1⟩ ∧
    classify_word "int".toList 1 = ⟨TOKEN_IDENTIFIER, "int".toList, 1⟩ ∧
    classify_word "breaks".toList 1 = ⟨TOKEN_IDENTIFIER, "breaks".toList, 1⟩ ∧
    (classify_word "break".toList 1).type = TOKEN_KEYWORD :=
  ⟨(classify_word_agrees_with_vocabulary "Break".toList 1 (by decide) (by decide)
      (by decide)).2.2.2 (by decide) (by decide) (by decide),
   (classify_word_agrees_with_vocabulary "iff".toList 1 (by decide) (by decide)
      (by decide)).2.2.2 (by decide) (by decide) (by decide),
   (classify_word_agrees_with_vocabulary "d".toList 1 (by decide) (by decide)
      (by decide)).2.2.2 (by decide) (by decide) (by decide),
   (classify_word_agrees_with_vocabulary "int".toList 1 (by decide) (by decide)
      (by decide)).2.2.2 (by decide) (by decide) (by decide),
   (classify_word_agrees_with_vocabulary "breaks".toList 1 (by decide) (by decide)
      (by decide)).2.2.2 (by decide) (by decide) (by decide),
   (classify_word_agrees_with_vocabulary "break".toList 1 (by decide) (by decide)
      (by decide)).1.mpr (by decide)⟩
/-! ## C4: maximal munch in `classify_operator` -/

theorem drop_take_one {s : List Char} {i : Nat} (h : i < s.length) :
    (s.drop i).take 1 = [charAt s i] := by
  rw [List.drop_eq_getElem_cons h, charAt_eq_getElem h]
  rfl

theorem drop_take_two {s : List Char} {i : Nat} (h : i + 1 < s.length) :
    (s.drop i).take 2 = [charAt s i, charAt s (i + 1)] := by
  have h0 : i < s.length := by omega
  rw [List.drop_eq_getElem_cons h0, List.drop_eq_getElem_cons h, charAt_eq_getElem h0,
    charAt_eq_getElem h]
  rfl

/-- C4. At a position whose character is one of `+-*/=$%^<>!`,
`classify_operator` returns a token; it consumes two characters exactly when
the character and its successor form one of the fourteen two-character
operators and one character otherwise; the token's text is exactly the
consumed characters, its kind is the category the specification gives that
spelling, and its line is the current line. -/
theorem classify_operator_maximal_munch (source : List Char) (index line_number : Nat)
    (hc : charAt source index ∈ "+-*/=$%^<>!".toList) :
    ∃ t, (classify_operator source index line_number).1 = some t ∧
      ((classify_operator source index line_number).2 = index + 2 ↔
        ∃ ty, ([charAt source index, charAt source (index + 1)], ty) ∈ two_char_operators) ∧
      ((classify_operator source index line_number).2 = index + 1 ↔
        ¬ ∃ ty, ([charAt source index, charAt source (index + 1)], ty) ∈ two_char_operators) ∧
      t.value =
        (source.drop index).take ((classify_operator source index line_number).2 - index) ∧
      (t.value, t.type) ∈ two_char_operators ++ one_char_operators ∧
      t.line_num = line_number := by
  have hne : charAt source index ≠ NUL := by
    intro h0
    rw [h0] at hc
    revert hc
    decide
  have hlt := lt_length_of_charAt_ne hne
  rcases classify_operator_cases source index line_number _ rfl with
    ⟨ty, hm, hr⟩ | ⟨ty, hm, hno, hr⟩ | ⟨hamp, _, _⟩ | ⟨hnot, _⟩
  · rw [hr]
    have h2 : index + 1 < source.length :=
      lt_length_of_charAt_ne (mem_two_char_next_ne_NUL hm)
    refine ⟨_, rfl, ?_, ?_, ?_, ?_, rfl⟩
    · exact ⟨fun _ => ⟨ty, hm⟩, fun _ => rfl⟩
    · constructor
      · intro h; simp at h
      · intro h; exact absurd ⟨ty, hm⟩ h
    · simp only [Nat.add_sub_cancel_left]
      exact (drop_take_two h2).symm
    · exact List.mem_append_left _ hm
  · rw [hr]
    refine ⟨_, rfl, ?_, ?_, ?_, ?_, rfl⟩
    · constructor
      · intro h; simp at h
      · rintro ⟨ty2, h2⟩; exact absurd h2 (hno ty2)
    · exact ⟨fun _ => fun ⟨ty2, h2⟩ => hno ty2 h2, fun _ => rfl⟩
    · simp only [Nat.add_sub_cancel_left]
      exact (drop_take_one hlt).symm
    · exact List.mem_append_right _ hm
  · exfalso
    rcases hamp with h | h <;> · rw [h] at hc; revert hc; decide
  · exfalso
    apply hnot
    simp only [String.toList, List.mem_cons, List.mem_singleton, List.not_mem_nil,
      or_false] at hc
    rcases hc with h | h | h | h | h | h | h | h | h | h | h <;> · rw [h]; decide

/-- Witness for C4: in `a<=b` at the `<` the operator `<=` is taken, in
`a<b` the operator `<`. -/
theorem classify_operator_maximal_munch_witness :
    charAt "a<=b".toList 1 ∈ "+-*/=$%^<>!".toList ∧
    ∃ t, (classify_operator "a<=b".toList 1 7).1 = some t ∧
      ((classify_operator "a<=b".toList 1 7).2 = 1 + 2 ↔
        ∃ ty, ([charAt "a<=b".toList 1, charAt "a<=b".toList (1 + 1)], ty) ∈
          two_char_operators) ∧
      ((classify_operator "a<=b".toList 1 7).2 = 1 + 1 ↔
        ¬ ∃ ty, ([charAt "a<=b".toList 1, charAt "a<=b".toList (1 + 1)], ty) ∈
          two_char_operators) ∧
      t.value = ("a<=b".toList.drop 1).take ((classify_operator "a<=b".toList 1 7).2 - 1) ∧
      (t.value, t.type) ∈ two_char_operators ++ one_char_operators ∧
      t.line_num = 7 :=
  ⟨by decide, classify_operator_maximal_munch "a<=b".toList 1 7 (by decide)⟩

/-! ## C5 and C6: `classify_number` -/

theorem drop_eq_charAt_cons {s : List Char} {i : Nat} (h : i < s.length) :
    s.drop i = charAt s i :: s.drop (i + 1) := by
  rw [charAt_eq_getElem h]
  exact List.drop_eq_getElem_cons h

theorem isdigit_ne_dot {c : Char} (h : isdigit c = true) : c ≠ '.' := by
  intro h0
  rw [h0] at h
  revert h
  decide

theorem number_loop_spec (source : List Char) :
    ∀ (fuel index : Nat) (buffer : List Char) (seen : Bool),
      source.length - index < fuel →
      ∃ p, number_loop source fuel index buffer seen =
          some (index + p.length, buffer ++ p, seen || decide ('.' ∈ p)) ∧
        p <+: source.drop index ∧ NumberText seen p ∧
        ∀ q, q <+: source.drop index → NumberText seen q → q.length ≤ p.length := by
  intro fuel
  induction fuel with
  | zero => intro index buffer seen h; omega
  | succ fuel ih =>
    intro index buffer seen h
    rw [number_loop]
    split
    · rename_i hc
      have hlt : index < source.length := by
        apply lt_length_of_charAt_ne
        intro h0
        rw [h0] at hc
        revert hc
        cases seen <;> decide
      have hdrop := drop_eq_charAt_cons hlt
      obtain ⟨p, he, hpre, hval, hmax⟩ := ih (index + 1) (buffer ++ [charAt source index])
        (if charAt source index == '.' then true else seen) (by omega)
      refine ⟨charAt source index :: p, ?_, ?_, ?_, ?_⟩
      · rw [he]
        simp only [List.length_cons, List.append_assoc, List.singleton_append,
          List.mem_cons, Option.some.injEq, Prod.mk.injEq]
        refine ⟨by omega, trivial, ?_⟩
        by_cases hdot : charAt source index = '.'
        · simp [hdot]
        · have : ('.' : Char) ≠ charAt source index := fun e => hdot e.symm
          simp [hdot, this]
      · rw [hdrop]
        exact List.prefix_cons_inj _ |>.mpr hpre
      · by_cases hdot : charAt source index = '.'
        · have hs : seen = false := by
            rw [hdot] at hc
            revert hc
            cases seen <;> decide
          subst hs
          simp only [hdot, beq_self_eq_true, if_true] at hval
          refine ⟨?_, ?_⟩
          · intro c hcm
            rcases List.mem_cons.mp hcm with rfl | hcm
            · exact Or.inr hdot
            · exact hval.1 c hcm
          · have := hval.2
            simp only [if_true] at this
            rw [hdot, List.count_cons_self]
            simp only [Bool.false_eq_true, if_false]
            omega
        · have hb : (charAt source index == '.') = false := by simpa using hdot
          simp only [hb, Bool.false_eq_true, if_false] at hval
          have hdig : isdigit (charAt source index) = true := by
            simpa [hb] using hc
          refine ⟨?_, ?_⟩
          · intro c hcm
            rcases List.mem_cons.mp hcm with rfl | hcm
            · exact Or.inl hdig
            · exact hval.1 c hcm
          · rw [List.count_cons_of_ne (fun e => hdot e.symm)]
            exact hval.2
      · intro q hq hqv
        cases q with
        | nil => simp
        | cons c q =>
          rw [hdrop] at hq
          obtain ⟨hcq, hq2⟩ := List.cons_prefix_cons.mp hq
          have : q.length ≤ p.length := by
            apply hmax q hq2
            refine ⟨fun x hx => hqv.1 x (List.mem_cons_of_mem _ hx), ?_⟩
            have h2 := hqv.2
            rw [← hcq]
            by_cases hdot : c = '.'
            · subst hdot
              rw [List.count_cons_self] at h2
              simp only [beq_self_eq_true, if_true]
              split at h2 <;> omega
            · have hb : (c == '.') = false := by simpa using hdot
              rw [List.count_cons_of_ne (fun e => hdot e.symm)] at h2
              simpa [hb] using h2
          simp only [List.length_cons]
          omega
    · rename_i hc
      refine ⟨[], by simp, List.nil_prefix, ⟨by simp, by simp; split <;> omega⟩, ?_⟩
      intro q hq hqv
      cases q with
      | nil => simp
      | cons c q =>
        exfalso
        apply hc
        have hlt : index < source.length := by
          by_contra hge
          rw [List.drop_eq_nil_of_le (not_lt.mp hge)] at hq
          simp at hq
        rw [drop_eq_charAt_cons hlt] at hq
        obtain ⟨hcq, _⟩ := List.cons_prefix_cons.mp hq
        rw [← hcq]
        rcases hqv.1 c (List.mem_cons_self _ _) with hd | hdot
        · simp [hd]
        · have h2 := hqv.2
          rw [hdot, List.count_cons_self] at h2
          have hs : seen = false := by
            cases seen
            · rfl
            · simp at h2
          simp [hdot, hs]
theorem NUL_not_mem_of_NumberText {seen : Bool} {p : List Char} (h : NumberText seen p) :
    NUL ∉ p := by
  intro hm
  rcases h.1 NUL hm with h0 | h0
  · revert h0; decide
  · revert h0; decide

theorem classify_number_spec (source : List Char) (index line_number : Nat) :
    ∃ p, classify_number source index line_number =
        some (⟨if '.' ∈ p then TOKEN_FLOAT else TOKEN_INTEGER, p, line_number⟩,
          index + p.length) ∧
      p <+: source.drop index ∧ NumberText false p ∧
      ∀ q, q <+: source.drop index → NumberText false q → q.length ≤ p.length := by
  obtain ⟨p, he, hpre, hval, hmax⟩ :=
    number_loop_spec source (source.length + 1) index [] false (by omega)
  refine ⟨p, ?_, hpre, hval, hmax⟩
  unfold classify_number
  rw [he]
  simp only [List.nil_append, Bool.false_or, create_token,
    strdup_eq_self (NUL_not_mem_of_NumberText hval), decide_eq_true_eq]

/-- C6. From any position at which every run of digits with at most one
decimal point is shorter than the 64-character capture buffer,
`classify_number` consumes exactly the longest prefix of the remaining input
that consists of digits and at most one decimal point (so it stops before a
second point); the token's text is that prefix and its kind is FLOAT exactly
when the prefix contains a point, INTEGER otherwise.  On `1.2.3` it returns
FLOAT "1.2" with three characters consumed, and on `3.` it returns FLOAT "3."
(the trailing point is taken). -/
theorem classify_number_longest_prefix (source : List Char) (index line_number : Nat)
    (_hb : ∀ q, q <+: source.drop index → (∀ c ∈ q, isdigit c = true ∨ c = '.') →
      q.count '.' ≤ 1 → q.length < 64) :
    (∃ p tok, classify_number source index line_number = some (tok, index + p.length) ∧
        p <+: source.drop index ∧
        ((∀ c ∈ p, isdigit c = true ∨ c = '.') ∧ p.count '.' ≤ 1) ∧
        (∀ q, q <+: source.drop index → (∀ c ∈ q, isdigit c = true ∨ c = '.') →
          q.count '.' ≤ 1 → q.length ≤ p.length) ∧
        tok.value = p ∧ (tok.type = TOKEN_FLOAT ↔ '.' ∈ p) ∧
        (tok.type = TOKEN_INTEGER ↔ '.' ∉ p) ∧ tok.line_num = line_number) ∧
    classify_number "1.2.3".toList 0 1 = some (⟨TOKEN_FLOAT, "1.2".toList, 1⟩, 3) ∧
    classify_number "3.".toList 0 1 = some (⟨TOKEN_FLOAT, "3.".toList, 1⟩, 2) := by
  refine ⟨?_, by decide, by decide⟩
  obtain ⟨p, he, hpre, hval, hmax⟩ := classify_number_spec source index line_number
  refine ⟨p, _, he, hpre, ⟨hval.1, by simpa using hval.2⟩, ?_, rfl, ?_, ?_, rfl⟩
  · intro q hq h1 h2
    exact hmax q hq ⟨h1, by simpa using h2⟩
  · by_cases hd : '.' ∈ p <;> simp [hd]
  · by_cases hd : '.' ∈ p <;> simp [hd]

/-- Witness for C6: in `x=1.2.3;` the number starts at index 2; the longest
prefix there is `1.2`, three characters, and the token is FLOAT "1.2". -/
theorem classify_number_longest_prefix_witness :
    classify_number "x=1.2.3;".toList 2 1 = some (⟨TOKEN_FLOAT, "1.2".toList, 1⟩, 5) ∧
    ((∃ p tok, classify_number "x=1.2.3;".toList 2 1 = some (tok, 2 + p.length) ∧
        p <+: "x=1.2.3;".toList.drop 2 ∧
        ((∀ c ∈ p, isdigit c = true ∨ c = '.') ∧ p.count '.' ≤ 1) ∧
        (∀ q, q <+: "x=1.2.3;".toList.drop 2 → (∀ c ∈ q, isdigit c = true ∨ c = '.') →
          q.count '.' ≤ 1 → q.length ≤ p.length) ∧
        tok.value = p ∧ (tok.type = TOKEN_FLOAT ↔ '.' ∈ p) ∧
        (tok.type = TOKEN_INTEGER ↔ '.' ∉ p) ∧ tok.line_num = 1) ∧
    classify_number "1.2.3".toList 0 1 = some (⟨TOKEN_FLOAT, "1.2".toList, 1⟩, 3) ∧
    classify_number "3.".toList 0 1 = some (⟨TOKEN_FLOAT, "3.".toList, 1⟩, 2)) :=
  ⟨by decide,
   classify_number_longest_prefix "x=1.2.3;".toList 2 1 (fun q hq _ _ => by
     have h := hq.length_le
     have h2 : ("x=1.2.3;".toList.drop 2).length = 6 := by decide
     omega)⟩

/-- C5. For every string `s` of the form `digit+ ('.' digit+)?` shorter than
the 64-character buffer, `classify_number` started at position 0 of `s`
consumes all of `s` and returns one token whose text is `s` and whose kind is
FLOAT if `s` contains a decimal point and INTEGER otherwise. -/
theorem classify_number_literal (s : List Char) (line_number : Nat)
    (hs : NumberLiteral s) (_hlen : s.length < 64) :
    classify_number s 0 line_number =
      some (⟨if '.' ∈ s then TOKEN_FLOAT else TOKEN_INTEGER, s, line_number⟩, s.length) := by
  obtain ⟨p, he, hpre, _, hmax⟩ := classify_number_spec s 0 line_number
  have hvalid : NumberText false s := by
    obtain ⟨a, b, _, ha, hb, hform⟩ := hs
    rcases hform with rfl | ⟨_, rfl⟩
    · refine ⟨fun c hc => Or.inl (ha c hc), ?_⟩
      have : s.count '.' = 0 :=
        List.count_eq_zero.mpr (fun hm => isdigit_ne_dot (ha _ hm) rfl)
      simp [this]
    · refine ⟨?_, ?_⟩
      · intro c hc
        rcases List.mem_append.mp hc with h | h
        · exact Or.inl (ha c h)
        · rcases List.mem_cons.mp h with h | h
          · exact Or.inr h
          · exact Or.inl (hb c h)
      · have h1 : a.count '.' = 0 :=
          List.count_eq_zero.mpr (fun hm => isdigit_ne_dot (ha _ hm) rfl)
        have h2 : b.count '.' = 0 :=
          List.count_eq_zero.mpr (fun hm => isdigit_ne_dot (hb _ hm) rfl)
        simp [List.count_append, h1, h2]
  rw [List.drop_zero] at hpre hmax
  have hlen := hmax s (List.prefix_refl s) hvalid
  have hps : p = s := List.IsPrefix.eq_of_length_le hpre hlen
  subst hps
  simpa using he

/-- Witness for C5: the literal `4.5`. -/
theorem classify_number_literal_witness :
    NumberLiteral "4.5".toList ∧ "4.5".toList.length < 64 ∧
    classify_number "4.5".toList 0 1 =
      some (⟨if '.' ∈ "4.5".toList then TOKEN_FLOAT else TOKEN_INTEGER, "4.5".toList, 1⟩,
        "4.5".toList.length) :=
  ⟨⟨['4'], ['5'], by decide, by decide, by decide, Or.inr ⟨by decide, by decide⟩⟩, by decide,
    classify_number_literal "4.5".toList 1
      ⟨['4'], ['5'], by decide, by decide, by decide, Or.inr ⟨by decide, by decide⟩⟩
      (by decide)⟩

/-! ## Reading the source through its suffixes -/

theorem charAt_of_drop_eq_cons {s : List Char} {i : Nat} {c : Char} {t : List Char}
    (h : s.drop i = c :: t) : charAt s i = c := by
  have hlt : i < s.length := by
    by_contra hge
    rw [List.drop_eq_nil_of_le (not_lt.mp hge)] at h
    cases h
  rw [drop_eq_charAt_cons hlt] at h
  exact (List.cons.inj h).1

theorem drop_succ_of_drop_eq_cons {s : List Char} {i : Nat} {c : Char} {t : List Char}
    (h : s.drop i = c :: t) : s.drop (i + 1) = t := by
  have hlt : i < s.length := by
    by_contra hge
    rw [List.drop_eq_nil_of_le (not_lt.mp hge)] at h
    cases h
  rw [drop_eq_charAt_cons hlt] at h
  exact (List.cons.inj h).2

theorem charAt_of_drop_eq_nil {s : List Char} {i : Nat} (h : s.drop i = []) :
    charAt s i = NUL :=
  charAt_of_length_le (List.drop_eq_nil_iff.mp h)

theorem strlen_eq_length {s : List Char} (h : NUL ∉ s) : strlen s = s.length := by
  have := strdup_eq_self h
  unfold strdup at this
  unfold strlen
  rw [this]

/-! ## Unfolding the driver loop -/

theorem tokenize_loop_done (source : List Char) (length fuel index line : Nat)
    (tokens : List Token) (count : Nat) (hf : fuel ≠ 0) (h : ¬ index < length) :
    tokenize_loop source length fuel index line tokens count =
      some (tokens ++ [⟨TOKEN_EOF, "EOF".toList, line⟩], count, line) := by
  cases fuel with
  | zero => exact absurd rfl hf
  | succ fuel =>
    rw [tokenize_loop, if_neg h]
    rfl

theorem tokenize_loop_step_some (source : List Char) (length fuel index line : Nat)
    (tokens : List Token) (count : Nat) (h : index < length) {t : Token} {i l : Nat}
    (hs : tokenize_step source index line = some (some t, i, l)) :
    tokenize_loop source length (fuel + 1) index line tokens count =
      tokenize_loop source length fuel i l (tokens ++ [t]) (count + 1) := by
  rw [tokenize_loop, if_pos h, hs]

theorem tokenize_loop_step_none (source : List Char) (length fuel index line : Nat)
    (tokens : List Token) (count : Nat) (h : index < length) {i l : Nat}
    (hs : tokenize_step source index line = some (none, i, l)) :
    tokenize_loop source length (fuel + 1) index line tokens count =
      tokenize_loop source length fuel i l tokens count := by
  rw [tokenize_loop, if_pos h, hs]

/-! ## C7: string literals -/

theorem string_loop_scan (source : List Char) :
    ∀ (s : List Char) (fuel index : Nat) (buffer : List Char) (line : Nat) (rest : List Char),
      (∀ c ∈ s, c ≠ '"' ∧ c ≠ NUL) → source.drop index = s ++ rest →
      string_loop source (fuel + s.length) index buffer line =
        string_loop source fuel (index + s.length) (buffer ++ s) (line + s.count '\n') := by
  intro s
  induction s with
  | nil => intro fuel index buffer line rest _ _; simp
  | cons c s ih =>
    intro fuel index buffer line rest hs hd
    have hc := charAt_of_drop_eq_cons hd
    have hd2 := drop_succ_of_drop_eq_cons hd
    obtain ⟨hq, hn⟩ := hs c (List.mem_cons_self _ _)
    have hfuel : fuel + (c :: s).length = (fuel + s.length) + 1 := by
      simp only [List.length_cons]; omega
    rw [hfuel, string_loop, hc]
    have hcond : (c != '"' && c != NUL) = true := by simp [hq, hn]
    rw [if_pos hcond, ih fuel (index + 1) _ _ rest
      (fun x hx => hs x (List.mem_cons_of_mem _ hx)) hd2]
    congr 1
    · simp only [List.length_cons]; omega
    · simp
    · by_cases hnl : c = '\n'
      · subst hnl
        simp only [beq_self_eq_true, if_true, List.count_cons_self]
        omega
      · have hb : (c == '\n') = false := by simpa using hnl
        rw [List.count_cons_of_ne (fun e => hnl e.symm)]
        simp [hb]

theorem classify_string_spec (source : List Char) (index line : Nat) (s rest : List Char)
    (hs : ∀ c ∈ s, c ≠ '"' ∧ c ≠ NUL) (hd : source.drop (index + 1) = s ++ rest)
    (hrest : rest = [] ∨ ∃ t, rest = '"' :: t) :
    classify_string source index line =
      some (⟨TOKEN_STRING, s, line + s.count '\n'⟩,
        index + 1 + s.length + (if rest = [] then 0 else 1), line + s.count '\n') := by
  have hlen : s.length ≤ source.length := by
    have := congrArg List.length hd
    simp only [List.length_drop, List.length_append] at this
    omega
  have hfuel : source.length + 1 = (source.length - s.length + 1) + s.length := by omega
  have hd3 : source.drop (index + 1 + s.length) = rest := by
    rw [← List.drop_drop, hd, List.drop_left]
  have hnul : NUL ∉ s := fun hm => (hs NUL hm).2 rfl
  unfold classify_string
  rw [hfuel, string_loop_scan source s _ (index + 1) [] line rest hs hd, string_loop]
  rcases hrest with rfl | ⟨t, rfl⟩
  · have hc := charAt_of_drop_eq_nil hd3
    have hcond : (NUL != '"' && NUL != NUL) = false := by decide
    have hq : (NUL == '"') = false := by decide
    rw [hc, hcond]
    simp [create_token, strdup_eq_self hnul, hc, hq]
  · have hc := charAt_of_drop_eq_cons hd3
    rw [hc]
    simp [create_token, strdup_eq_self hnul, hc]
theorem tokenize_step_of_quote (source : List Char) (index line : Nat)
    (h : charAt source index = '"') :
    tokenize_step source index line =
      (classify_string source index line).map (fun r => (some r.1, r.2.1, r.2.2)) := by
  have h1 : isspace '"' = false := by decide
  have h2 : ('"' == '~') = false := by decide
  have h3 : isdigit '"' = false := by decide
  have h4 : (isalpha '"' || '"' == '_') = false := by decide
  have h5 : strchr operator_chars '"' = false := by decide
  have h6 : strchr delimiter_chars '"' = false := by decide
  unfold tokenize_step
  simp only [h, h1, h2, Bool.false_eq_true, if_false]
  unfold dispatch
  simp only [h3, h4, h5, h6, Bool.false_eq_true, if_false, beq_self_eq_true, if_true]
  cases classify_string source index line with
  | none => rfl
  | some r => rfl

theorem tokenize_string_source (source s rest : List Char) (line : Nat)
    (hsrc : source = '"' :: (s ++ rest)) (hrest : rest = [] ∨ rest = ['"'])
    (hq : '"' ∉ s) (hn : NUL ∉ s) :
    tokenize source line =
      some ([⟨TOKEN_STRING, s, line + s.count '\n'⟩,
             ⟨TOKEN_EOF, "EOF".toList, line + s.count '\n'⟩], 1, line + s.count '\n') := by
  have hnul : NUL ∉ source := by
    rw [hsrc]
    intro hm
    rcases List.mem_cons.mp hm with h | h
    · exact absurd h (by decide)
    · rcases List.mem_append.mp h with h | h
      · exact hn h
      · rcases hrest with rfl | rfl
        · cases h
        · exact absurd (List.mem_singleton.mp h) (by decide)
  have hs : ∀ c ∈ s, c ≠ '"' ∧ c ≠ NUL :=
    fun c hc => ⟨fun e => hq (e ▸ hc), fun e => hn (e ▸ hc)⟩
  have h0 : charAt source 0 = '"' := by rw [hsrc]; rfl
  have hd : source.drop (0 + 1) = s ++ rest := by rw [hsrc]; rfl
  have hcs := classify_string_spec source 0 line s rest hs hd
    (by rcases hrest with h | h
        · exact Or.inl h
        · exact Or.inr ⟨[], h⟩)
  have hlen : source.length = 0 + 1 + s.length + (if rest = [] then 0 else 1) := by
    rw [hsrc]
    rcases hrest with rfl | rfl
    · simp; omega
    · simp; omega
  have hstep := tokenize_step_of_quote source 0 line h0
  rw [hcs] at hstep
  simp only [Option.map_some'] at hstep
  unfold tokenize
  rw [strlen_eq_length hnul,
    tokenize_loop_step_some source source.length source.length 0 line [] 0 (by omega) hstep,
    tokenize_loop_done _ _ _ _ _ _ _ (by omega) (by omega)]
  rfl

/-- C7. For every string `s` without a double quote and without NUL, shorter
than the 256-character buffer, both the terminated source `"s"` and the
unterminated source `"s` are tokenized to exactly the STRING token with text
`s` followed by EOF (both on the line reached after the newlines of `s`), and
`token_count` is 1. -/
theorem tokenize_string_literal (s : List Char) (line_number : Nat)
    (hq : '"' ∉ s) (hn : NUL ∉ s) (_hlen : s.length < 256) :
    tokenize ('"' :: (s ++ ['"'])) line_number =
        some ([⟨TOKEN_STRING, s, line_number + s.count '\n'⟩,
               ⟨TOKEN_EOF, "EOF".toList, line_number + s.count '\n'⟩], 1,
          line_number + s.count '\n') ∧
      tokenize ('"' :: s) line_number =
        some ([⟨TOKEN_STRING, s, line_number + s.count '\n'⟩,
               ⟨TOKEN_EOF, "EOF".toList, line_number + s.count '\n'⟩], 1,
          line_number + s.count '\n') :=
  ⟨tokenize_string_source _ s ['"'] line_number rfl (Or.inr rfl) hq hn,
   tokenize_string_source _ s [] line_number (by simp) (Or.inl rfl) hq hn⟩

/-- Witness for C7: the unterminated `"abc` and the terminated `"abc"` both
give STRING "abc", EOF. -/
theorem tokenize_string_literal_witness :
    '"' ∉ "abc".toList ∧ NUL ∉ "abc".toList ∧ "abc".toList.length < 256 ∧
    tokenize ('"' :: ("abc".toList ++ ['"'])) 1 =
        some ([⟨TOKEN_STRING, "abc".toList, 1 + "abc".toList.count '\n'⟩,
               ⟨TOKEN_EOF, "EOF".toList, 1 + "abc".toList.count '\n'⟩], 1,
          1 + "abc".toList.count '\n') ∧
      tokenize ('"' :: "abc".toList) 1 =
        some ([⟨TOKEN_STRING, "abc".toList, 1 + "abc".toList.count '\n'⟩,
               ⟨TOKEN_EOF, "EOF".toList, 1 + "abc".toList.count '\n'⟩], 1,
          1 + "abc".toList.count '\n') :=
  ⟨by decide, by decide, by decide,
    tokenize_string_literal "abc".toList 1 (by decide) (by decide) (by decide)⟩

/-! ## C8 and C9: character literals -/

/-- C8. At a position holding a single quote, with `c` the next character
and `d` the one after it: `classify_character` returns a token exactly when
`c` is neither a single quote nor the end of input and `d` is a single quote;
then the token is CHARACTER with text `c` and three characters are consumed.
Otherwise no token is returned and the index has advanced by one (empty
literal or end of input) or by two (missing closing quote). -/
theorem classify_character_cases (source : List Char) (index line_number : Nat)
    (h : charAt source index = '\'') :
    (((classify_character source index line_number).1.isSome = true) ↔
      (charAt source (index + 1) ≠ '\'' ∧ charAt source (index + 1) ≠ NUL ∧
        charAt source (index + 2) = '\'')) ∧
    (charAt source (index + 1) ≠ '\'' → charAt source (index + 1) ≠ NUL →
      charAt source (index + 2) = '\'' →
      classify_character source index line_number =
        (some ⟨TOKEN_CHARACTER, [charAt source (index + 1)], line_number⟩, index + 3)) ∧
    (charAt source (index + 1) = '\'' ∨ charAt source (index + 1) = NUL →
      classify_character source index line_number = (none, index + 1)) ∧
    (charAt source (index + 1) ≠ '\'' → charAt source (index + 1) ≠ NUL →
      charAt source (index + 2) ≠ '\'' →
      classify_character source index line_number = (none, index + 2)) := by
  have hb : (charAt source index != '\'') = false := by simp [h]
  have e : ∀ c : Char, c ≠ NUL → strdup [c, NUL] = [c] := by
    intro c hc
    have hne : (c != NUL) = true := by simpa using hc
    have hnn : (NUL != NUL) = false := by decide
    simp only [strdup, List.takeWhile, hne, hnn]
  by_cases h1 : charAt source (index + 1) = NUL ∨ charAt source (index + 1) = '\''
  · have hr : classify_character source index line_number = (none, index + 1) := by
      unfold classify_character
      rcases h1 with h1 | h1 <;> simp [hb, h1]
    rw [hr]
    refine ⟨⟨fun hs => by simp at hs, fun hw => ?_⟩, fun a b _ => ?_, fun _ => rfl,
      fun a b _ => ?_⟩
    · rcases h1 with h1 | h1
      · exact absurd h1 hw.2.1
      · exact absurd h1 hw.1
    · rcases h1 with h1 | h1
      · exact absurd h1 b
      · exact absurd h1 a
    · rcases h1 with h1 | h1
      · exact absurd h1 b
      · exact absurd h1 a
  · simp only [not_or] at h1
    obtain ⟨hn, hq⟩ := h1
    by_cases h2 : charAt source (index + 2) = '\''
    · have hr : classify_character source index line_number =
          (some ⟨TOKEN_CHARACTER, [charAt source (index + 1)], line_number⟩, index + 3) := by
        unfold classify_character
        simp [hb, hn, hq, h2, create_token, e _ hn]
      rw [hr]
      exact ⟨⟨fun _ => ⟨hq, hn, h2⟩, fun _ => rfl⟩, fun _ _ _ => rfl,
        fun hc => by rcases hc with hc | hc <;> contradiction, fun _ _ hc => absurd h2 hc⟩
    · have hr : classify_character source index line_number = (none, index + 2) := by
        unfold classify_character
        simp [hb, hn, hq, h2]
      rw [hr]
      exact ⟨⟨fun hs => by simp at hs, fun hw => absurd hw.2.2 h2⟩,
        fun _ _ hc => absurd hc h2,
        fun hc => by rcases hc with hc | hc <;> contradiction, fun _ _ _ => rfl⟩

/-- Witness for C8: the literal `'a'` at position 0. -/
theorem classify_character_cases_witness :
    charAt "'a'".toList 0 = '\'' ∧
    classify_character "'a'".toList 0 1 = (some ⟨TOKEN_CHARACTER, ['a'], 1⟩, 0 + 3) ∧
    classify_character "''".toList 0 1 = (none, 0 + 1) ∧
    classify_character "'ab'".toList 0 1 = (none, 0 + 2) :=
  ⟨by decide,
   (classify_character_cases "'a'".toList 0 1 (by decide)).2.1 (by decide) (by decide)
     (by decide),
   (classify_character_cases "''".toList 0 1 (by decide)).2.2.1 (by decide),
   (classify_character_cases "'ab'".toList 0 1 (by decide)).2.2.2 (by decide) (by decide)
     (by decide)⟩

/-- C9. Scanning the malformed literal `'ab'` returns: the result is
IDENTIFIER "b" followed by EOF, so it contains no CHARACTER token and its
last element is the EOF token. -/
theorem tokenize_malformed_character_literal :
    tokenize "'ab'".toList 1 =
        some ([⟨TOKEN_IDENTIFIER, "b".toList, 1⟩, ⟨TOKEN_EOF, "EOF".toList, 1⟩], 1, 1) ∧
      ∃ toks count line, tokenize "'ab'".toList 1 = some (toks, count, line) ∧
        (∀ t ∈ toks, t.type ≠ TOKEN_CHARACTER) ∧
        toks.getLast? = some ⟨TOKEN_EOF, "EOF".toList, line⟩ := by
  refine ⟨by decide,
    [⟨TOKEN_IDENTIFIER, "b".toList, 1⟩, ⟨TOKEN_EOF, "EOF".toList, 1⟩], 1, 1,
    by decide, by decide, by decide⟩

/-! ## C10: block comments -/

theorem block_comment_loop_scan (source : List Char) :
    ∀ (body : List Char) (fuel index : Nat) (buffer : List Char) (line : Nat)
      (rest : List Char),
      NUL ∉ body → ¬ ['^', '~'] <:+: body → (rest = [] ∨ ∃ t, rest = '^' :: t) →
      source.drop index = body ++ rest →
      block_comment_loop source (fuel + body.length) index buffer line =
        block_comment_loop source fuel (index + body.length)
          (buffer ++ newlines_to_spaces body) (line + body.count '\n') := by
  intro body
  induction body with
  | nil => intro fuel index buffer line rest _ _ _ _; simp [newlines_to_spaces]
  | cons c body ih =>
    intro fuel index buffer line rest hn hno hrest hd
    have hc := charAt_of_drop_eq_cons hd
    have hd2 := drop_succ_of_drop_eq_cons hd
    have hcn : c ≠ NUL := fun e => hn (e ▸ List.mem_cons_self _ _)
    have hnext : ¬ (c = '^' ∧ charAt source (index + 1) = '~') := by
      rintro ⟨h1, h2⟩
      cases body with
      | nil =>
        change source.drop (index + 1) = rest at hd2
        rcases hrest with rfl | ⟨t, rfl⟩
        · rw [charAt_of_drop_eq_nil hd2] at h2
          exact absurd h2 (by decide)
        · rw [charAt_of_drop_eq_cons hd2] at h2
          exact absurd h2 (by decide)
      | cons c2 body =>
        change source.drop (index + 1) = c2 :: (body ++ rest) at hd2
        rw [charAt_of_drop_eq_cons hd2] at h2
        apply hno
        rw [h1, h2]
        exact (List.prefix_append ['^', '~'] body).isInfix
    have hfuel : fuel + (c :: body).length = (fuel + body.length) + 1 := by
      simp only [List.length_cons]; omega
    have hcond : (!(c == '^' && charAt source (index + 1) == '~') && c != NUL) = true := by
      have : (c == '^' && charAt source (index + 1) == '~') = false := by
        simpa using hnext
      simp [this, hcn]
    have hno2 : ¬ ['^', '~'] <:+: body := fun hi => hno (hi.trans (List.suffix_cons c body).isInfix)
    have hn2 : NUL ∉ body := fun hm => hn (List.mem_cons_of_mem _ hm)
    rw [hfuel, block_comment_loop, hc, if_pos hcond]
    by_cases hnl : c = '\n'
    · subst hnl
      rw [if_pos (by decide), ih fuel (index + 1) _ _ rest hn2 hno2 hrest hd2]
      congr 1
      · simp only [List.length_cons]; omega
      · simp [newlines_to_spaces]
      · simp only [List.count_cons_self]; omega
    · have hb : (c == '\n') = false := by simpa using hnl
      rw [if_neg (by simp [hb]), ih fuel (index + 1) _ _ rest hn2 hno2 hrest hd2]
      congr 1
      · simp only [List.length_cons]; omega
      · simp [newlines_to_spaces, hnl]
      · rw [List.count_cons_of_ne (fun e => hnl e.symm)]

theorem NUL_not_mem_newlines_to_spaces {body : List Char} (h : NUL ∉ body) :
    NUL ∉ newlines_to_spaces body := by
  intro hm
  simp only [newlines_to_spaces, List.mem_map] at hm
  obtain ⟨c, hc, he⟩ := hm
  split at he
  · exact absurd he (by decide)
  · exact h (he ▸ hc)

theorem classify_comment_block_spec (source : List Char) (index line : Nat)
    (body rest : List Char) (hn : NUL ∉ body) (hno : ¬ ['^', '~'] <:+: body)
    (hrest : rest = [] ∨ ∃ t, rest = '^' :: '~' :: t)
    (hd : source.drop index = '~' :: '^' :: (body ++ rest)) :
    classify_comment source index line =
      some (some ⟨TOKEN_COMMENT, newlines_to_spaces body, line⟩,
        index + 2 + body.length + (if rest = [] then 0 else 2), line + body.count '\n') := by
  have h0 := charAt_of_drop_eq_cons hd
  have hd1 := drop_succ_of_drop_eq_cons hd
  have h1 := charAt_of_drop_eq_cons hd1
  have hd2 : source.drop (index + 2) = body ++ rest := drop_succ_of_drop_eq_cons hd1
  have hlen : body.length ≤ source.length := by
    have := congrArg List.length hd2
    simp only [List.length_drop, List.length_append] at this
    omega
  have hfuel : source.length + 1 = (source.length - body.length + 1) + body.length := by omega
  have hd3 : source.drop (index + 2 + body.length) = rest := by
    rw [← List.drop_drop, hd2, List.drop_left]
  have hl : (charAt source index == '~' && charAt source (index + 1) == '~') = false := by
    rw [h0, h1]; decide
  have hb : (charAt source index == '~' && charAt source (index + 1) == '^') = true := by
    rw [h0, h1]; decide
  unfold classify_comment
  simp only [hl, hb, Bool.false_eq_true, if_false, if_true]
  rw [hfuel, block_comment_loop_scan source body _ (index + 2) [] line rest hn hno
    (by rcases hrest with h | ⟨t, h⟩
        · exact Or.inl h
        · exact Or.inr ⟨_, h⟩) hd2, block_comment_loop]
  rcases hrest with rfl | ⟨t, rfl⟩
  · have hc := charAt_of_drop_eq_nil hd3
    have hcond : (!(NUL == '^' && charAt source (index + 2 + body.length + 1) == '~')
        && NUL != NUL) = false := by simp
    have hq : (NUL == '^') = false := by decide
    rw [hc, hcond]
    simp [create_token, strdup_eq_self (NUL_not_mem_newlines_to_spaces hn), hc, hq]
  · have hc := charAt_of_drop_eq_cons hd3
    have hc2 := charAt_of_drop_eq_cons (drop_succ_of_drop_eq_cons hd3)
    rw [hc, hc2]
    simp [create_token, strdup_eq_self (NUL_not_mem_newlines_to_spaces hn), hc, hc2]
/-- C10. For every body without NUL that does not contain `^~`, shorter than
the 256-character buffer, and every value `L` of the line counter,
`classify_comment` on the terminated source `~^ body ^~` and on the
unterminated source `~^ body` returns the COMMENT token whose text is the
body with each newline replaced by one space (same length as the body) and
whose line is `L`; the whole source is consumed and the line counter
afterwards is `L` plus the number of newlines of the body. -/
theorem classify_comment_block (body : List Char) (line_number : Nat)
    (hn : NUL ∉ body) (hno : ¬ ['^', '~'] <:+: body) (_hlen : body.length < 256) :
    classify_comment ('~' :: '^' :: (body ++ ['^', '~'])) 0 line_number =
        some (some ⟨TOKEN_COMMENT, newlines_to_spaces body, line_number⟩,
          ('~' :: '^' :: (body ++ ['^', '~'])).length, line_number + body.count '\n') ∧
      classify_comment ('~' :: '^' :: body) 0 line_number =
        some (some ⟨TOKEN_COMMENT, newlines_to_spaces body, line_number⟩,
          ('~' :: '^' :: body).length, line_number + body.count '\n') ∧
      (newlines_to_spaces body).length = body.length ∧
      ∀ c ∈ newlines_to_spaces body, c ≠ '\n' := by
  refine ⟨?_, ?_, by simp [newlines_to_spaces], ?_⟩
  · rw [classify_comment_block_spec _ 0 line_number body ['^', '~'] hn hno
      (Or.inr ⟨[], rfl⟩) rfl]
    simp
    omega
  · rw [classify_comment_block_spec _ 0 line_number body [] hn hno (Or.inl rfl) (by simp)]
    simp
    omega
  · intro c hc
    simp only [newlines_to_spaces, List.mem_map] at hc
    obtain ⟨x, _, he⟩ := hc
    split at he
    · rw [← he]; decide
    · rw [← he]; assumption

/-- Witness for C10: the body "a", newline, "b^" started on line 3. -/
theorem classify_comment_block_witness :
    NUL ∉ ['a', '\n', 'b', '^'] ∧ ¬ ['^', '~'] <:+: ['a', '\n', 'b', '^'] ∧
    classify_comment ('~' :: '^' :: (['a', '\n', 'b', '^'] ++ ['^', '~'])) 0 3 =
        some (some ⟨TOKEN_COMMENT, ['a', ' ', 'b', '^'], 3⟩, 8, 4) ∧
      classify_comment ('~' :: '^' :: ['a', '\n', 'b', '^']) 0 3 =
        some (some ⟨TOKEN_COMMENT, ['a', ' ', 'b', '^'], 3⟩, 6, 4) :=
  have h := classify_comment_block ['a', '\n', 'b', '^'] 3 (by decide) (by decide) (by decide)
  ⟨by decide, by decide, h.1, h.2.1⟩

/-! ## C11: line comments -/

theorem line_comment_loop_scan (source : List Char) :
    ∀ (body : List Char) (fuel index : Nat) (buffer : List Char) (rest : List Char),
      (∀ c ∈ body, c ≠ '\n' ∧ c ≠ NUL) → source.drop index = body ++ rest →
      line_comment_loop source (fuel + body.length) index buffer =
        line_comment_loop source fuel (index + body.length) (buffer ++ body) := by
  intro body
  induction body with
  | nil => intro fuel index buffer rest _ _; simp
  | cons c body ih =>
    intro fuel index buffer rest hs hd
    have hc := charAt_of_drop_eq_cons hd
    have hd2 := drop_succ_of_drop_eq_cons hd
    obtain ⟨hq, hn⟩ := hs c (List.mem_cons_self _ _)
    have hfuel : fuel + (c :: body).length = (fuel + body.length) + 1 := by
      simp only [List.length_cons]; omega
    have hcond : (c != '\n' && c != NUL) = true := by simp [hq, hn]
    rw [hfuel, line_comment_loop, hc, if_pos hcond, ih fuel (index + 1) _ rest
      (fun x hx => hs x (List.mem_cons_of_mem _ hx)) hd2]
    congr 1
    · simp only [List.length_cons]; omega
    · simp

theorem classify_comment_line_spec (source : List Char) (index line : Nat)
    (body rest : List Char) (hs : ∀ c ∈ body, c ≠ '\n' ∧ c ≠ NUL)
    (hrest : rest = [] ∨ ∃ t, rest = '\n' :: t)
    (hd : source.drop index = '~' :: '~' :: (body ++ rest)) :
    classify_comment source index line =
      some (some ⟨TOKEN_COMMENT, body, line⟩, index + 2 + body.length, line) := by
  have h0 := charAt_of_drop_eq_cons hd
  have hd1 := drop_succ_of_drop_eq_cons hd
  have h1 := charAt_of_drop_eq_cons hd1
  have hd2 : source.drop (index + 2) = body ++ rest := drop_succ_of_drop_eq_cons hd1
  have hlen : body.length ≤ source.length := by
    have := congrArg List.length hd2
    simp only [List.length_drop, List.length_append] at this
    omega
  have hfuel : source.length + 1 = (source.length - body.length + 1) + body.length := by omega
  have hd3 : source.drop (index + 2 + body.length) = rest := by
    rw [← List.drop_drop, hd2, List.drop_left]
  have hnul : NUL ∉ body := fun hm => (hs NUL hm).2 rfl
  have hl : (charAt source index == '~' && charAt source (index + 1) == '~') = true := by
    rw [h0, h1]; decide
  unfold classify_comment
  simp only [hl, if_true]
  rw [hfuel, line_comment_loop_scan source body _ (index + 2) [] rest hs hd2,
    line_comment_loop]
  have hstop : (charAt source (index + 2 + body.length) != '\n' &&
      charAt source (index + 2 + body.length) != NUL) = false := by
    rcases hrest with rfl | ⟨t, rfl⟩
    · rw [charAt_of_drop_eq_nil hd3]; decide
    · rw [charAt_of_drop_eq_cons hd3]; decide
  rw [hstop]
  simp [create_token, strdup_eq_self hnul]

/-- C11. For every body without newline and without NUL, shorter than the
256-character buffer, and every value `L` of the line counter,
`classify_comment` on `~~ body` followed by a newline (and any further text)
or by the end of input returns the COMMENT token whose text is exactly the
body and whose line is `L`; the new index is that of the newline (or the end
of input), which is not consumed, and the line counter is still `L`.  On
`~~ note`, newline, `let y = 2;` the comment " note" is on line 1 and the
noise word `let` that follows is on line 2. -/
theorem classify_comment_line (body tail : List Char) (line_number : Nat)
    (hnl : '\n' ∉ body) (hn : NUL ∉ body) (_hlen : body.length < 256) :
    classify_comment ('~' :: '~' :: (body ++ '\n' :: tail)) 0 line_number =
        some (some ⟨TOKEN_COMMENT, body, line_number⟩, body.length + 2, line_number) ∧
      charAt ('~' :: '~' :: (body ++ '\n' :: tail)) (body.length + 2) = '\n' ∧
      classify_comment ('~' :: '~' :: body) 0 line_number =
        some (some ⟨TOKEN_COMMENT, body, line_number⟩, ('~' :: '~' :: body).length,
          line_number) ∧
      tokenize "~~ note\nlet y = 2;".toList 1 =
        some ([⟨TOKEN_COMMENT, " note".toList, 1⟩, ⟨TOKEN_NOISE_WORD, "LET".toList, 2⟩,
               ⟨TOKEN_IDENTIFIER, "y".toList, 2⟩, ⟨TOKEN_ASSIGNMENT_OPERATOR, "=".toList, 2⟩,
               ⟨TOKEN_INTEGER, "2".toList, 2⟩, ⟨TOKEN_DELIMITER, ";".toList, 2⟩,
               ⟨TOKEN_EOF, "EOF".toList, 2⟩], 6, 2) := by
  have hs : ∀ c ∈ body, c ≠ '\n' ∧ c ≠ NUL :=
    fun c hc => ⟨fun e => hnl (e ▸ hc), fun e => hn (e ▸ hc)⟩
  refine ⟨?_, ?_, ?_, by decide⟩
  · rw [classify_comment_line_spec _ 0 line_number body ('\n' :: tail) hs
      (Or.inr ⟨tail, rfl⟩) rfl]
    simp
    omega
  · apply charAt_of_drop_eq_cons (t := tail)
    simp
  · rw [classify_comment_line_spec _ 0 line_number body [] hs (Or.inl rfl) (by simp)]
    simp
    omega

/-- Witness for C11: the comment of `~~ note`, newline, `let y = 2;`. -/
theorem classify_comment_line_witness :
    '\n' ∉ " note".toList ∧ NUL ∉ " note".toList ∧
    classify_comment ('~' :: '~' :: (" note".toList ++ '\n' :: "let y = 2;".toList)) 0 1 =
      some (some ⟨TOKEN_COMMENT, " note".toList, 1⟩, " note".toList.length + 2, 1) :=
  ⟨by decide, by decide,
    (classify_comment_line " note".toList "let y = 2;".toList 1 (by decide) (by decide)
      (by decide)).1⟩
/-! ## C16: `classify_delimiter` -/

/-- C16 (counterexample). For the NUL character `classify_delimiter` returns
the UNKNOWN token with empty text, not with the one character as text. -/
theorem classify_delimiter_NUL :
    classify_delimiter NUL 1 = ⟨TOKEN_UNKNOWN, [], 1⟩ ∧
      (classify_delimiter NUL 1).value ≠ [NUL] := by
  decide

/-- C16 (amended). For every character other than NUL and every line,
`classify_delimiter` returns the token whose kind is the one the table gives
the character (six pairwise distinct kinds for `(` `)` `{` `}` `[` `]`,
DELIMITER for `;` and `,`, UNKNOWN for every other character), whose text is
that one character and whose line is the line passed in. -/
theorem classify_delimiter_mapping (c : Char) (line_number : Nat) (hc : c ≠ NUL) :
    classify_delimiter c line_number = ⟨delimiter_kind c, [c], line_number⟩ ∧
      (['(', ')', '\x7b', '\x7d', '[', ']'].map delimiter_kind =
          [TOKEN_DELIMITER_OPEN_PARENTHESIS, TOKEN_DELIMITER_CLOSE_PARENTHESIS,
           TOKEN_DELIMITER_OPEN_BRACE, TOKEN_DELIMITER_CLOSE_BRACE,
           TOKEN_DELIMITER_OPEN_BRACKET, TOKEN_DELIMITER_CLOSE_BRACKET] ∧
        (['(', ')', '\x7b', '\x7d', '[', ']'].map delimiter_kind).Nodup) ∧
      delimiter_kind ';' = TOKEN_DELIMITER ∧ delimiter_kind ',' = TOKEN_DELIMITER ∧
      (c ∉ ['(', ')', '\x7b', '\x7d', '[', ']', ';', ','] →
        delimiter_kind c = TOKEN_UNKNOWN) := by
  refine ⟨?_, by decide, by decide, by decide, ?_⟩
  · have e : strdup [c, NUL] = [c] := by
      have hne : (c != NUL) = true := by simpa using hc
      have hnn : (NUL != NUL) = false := by decide
      simp only [strdup, List.takeWhile, hne, hnn]
    by_cases h0 : c = ';'
    · subst h0; rfl
    by_cases h1 : c = ','
    · subst h1; rfl
    by_cases h2 : c = '('
    · subst h2; rfl
    by_cases h3 : c = ')'
    · subst h3; rfl
    by_cases h4 : c = '\x7b'
    · subst h4; rfl
    by_cases h5 : c = '\x7d'
    · subst h5; rfl
    by_cases h6 : c = '['
    · subst h6; rfl
    by_cases h7 : c = ']'
    · subst h7; rfl
    simp only [classify_delimiter, delimiter_kind, h0, h1, h2, h3, h4, h5, h6, h7, if_false, or_self,
      create_token, e]
  · intro hm
    simp only [List.mem_cons, List.mem_singleton, List.not_mem_nil, or_false, not_or] at hm
    simp [delimiter_kind, hm]

/-- Witness for C16 (amended): the character `(`. -/
theorem classify_delimiter_mapping_witness :
    '(' ≠ NUL ∧
    classify_delimiter '(' 4 = ⟨TOKEN_DELIMITER_OPEN_PARENTHESIS, ['('], 4⟩ :=
  ⟨by decide, (classify_delimiter_mapping '(' 4 (by decide)).1⟩

/-! ## C17: example A of the specification -/

/-- C17. For the input `x = 3 + 4.5;` `tokenize` returns exactly IDENTIFIER
"x", ASSIGNMENT_OPERATOR "=", INTEGER "3", ARITHMETIC_OPERATOR "+", FLOAT
"4.5", DELIMITER ";", EOF, every token on line 1. -/
theorem tokenize_example_assignment :
    tokenize "x = 3 + 4.5;".toList 1 =
      some ([⟨TOKEN_IDENTIFIER, "x".toList, 1⟩, ⟨TOKEN_ASSIGNMENT_OPERATOR, "=".toList, 1⟩,
             ⟨TOKEN_INTEGER, "3".toList, 1⟩, ⟨TOKEN_ARITHMETIC_OPERATOR, "+".toList, 1⟩,
             ⟨TOKEN_FLOAT, "4.5".toList, 1⟩, ⟨TOKEN_DELIMITER, ";".toList, 1⟩,
             ⟨TOKEN_EOF, "EOF".toList, 1⟩], 6, 1) := by
  decide

/-! ## Characters of the driver's dispatch -/

theorem charAt_mem {s : List Char} {i : Nat} (h : i < s.length) : charAt s i ∈ s := by
  rw [charAt_eq_getElem h]
  exact List.getElem_mem h

theorem charAt_ne_NUL_of_lt_strlen :
    ∀ (s : List Char) (i : Nat), i < strlen s → charAt s i ≠ NUL := by
  intro s
  induction s with
  | nil => intro i h; simp [strlen] at h
  | cons c s ih =>
    intro i h
    unfold strlen at h
    rw [List.takeWhile_cons] at h
    by_cases hc : c = NUL
    · simp [hc] at h
    · have hb : (c != NUL) = true := by simpa using hc
      rw [hb] at h
      simp only [if_true, List.length_cons] at h
      cases i with
      | zero => exact hc
      | succ i => exact ih i (by unfold strlen; omega)

theorem word_start_facts {c : Char} (h : (isalpha c || c == '_') = true) :
    isspace c = false ∧ (c == '~') = false ∧ isdigit c = false := by
  rw [Bool.or_eq_true] at h
  rcases h with h | h
  · refine ⟨?_, ?_, ?_⟩
    · simp only [isalpha, isspace, Bool.or_eq_true, Bool.and_eq_true, decide_eq_true_eq,
        Bool.or_eq_false_iff, Bool.and_eq_false_iff, decide_eq_false_iff_not] at h ⊢
      omega
    · rw [beq_eq_false_iff_ne]
      intro e
      rw [e] at h
      revert h
      decide
    · simp only [isalpha, isdigit, Bool.or_eq_true, Bool.and_eq_true, decide_eq_true_eq,
        Bool.and_eq_false_iff, decide_eq_false_iff_not] at h ⊢
      omega
  · have e : c = '_' := by simpa using h
    subst e
    decide

/-! ## C19: unrecognized characters -/

theorem tokenize_step_of_space (source : List Char) (index line : Nat)
    (h : isspace (charAt source index) = true) :
    tokenize_step source index line =
      some (none, index + 1, if charAt source index == '\n' then line + 1 else line) := by
  unfold tokenize_step
  simp only [h, if_true]

theorem tokenize_step_of_unrecognized (source : List Char) (index line : Nat)
    (hs : isspace (charAt source index) = false) (hn : charAt source index ≠ NUL)
    (h : unrecognized (charAt source index) = true) :
    tokenize_step source index line = some (none, index + 1, line) := by
  simp only [unrecognized, Bool.and_eq_true, Bool.not_eq_true', bne_iff_ne, ne_eq] at h
  obtain ⟨⟨⟨⟨⟨⟨⟨h1, h2⟩, h3⟩, h4⟩, h5⟩, h6⟩, h7⟩, h8⟩ := h
  have hn' : (charAt source index == NUL) = false := by simpa using hn
  have h3' : (charAt source index == '_') = false := by simpa using h3
  have h5' : (charAt source index == '"') = false := by simpa using h5
  have h6' : (charAt source index == '\'') = false := by simpa using h6
  unfold tokenize_step
  simp only [hs, Bool.false_eq_true, if_false, beq_iff_eq, h4]
  unfold dispatch
  simp only [h2, h1, h3', h5', h6', strchr, h7, h8, hn', Bool.or_false, beq_iff_eq,
    Bool.false_eq_true, if_false]

theorem tokenize_step_of_lone_tilde (source : List Char) (index line : Nat)
    (h0 : charAt source index = '~') (h1 : charAt source (index + 1) ≠ '~')
    (h2 : charAt source (index + 1) ≠ '^') :
    tokenize_step source index line = some (none, index + 1, line) := by
  have hc : classify_comment source index line = some (none, index, line) := by
    unfold classify_comment
    simp [h0, h1, h2]
  have f1 : isspace '~' = false := by decide
  have f2 : isdigit '~' = false := by decide
  have f3 : (isalpha '~' || '~' == '_') = false := by decide
  have f4 : strchr operator_chars '~' = false := by decide
  have f5 : strchr delimiter_chars '~' = false := by decide
  have f6 : ('~' == '"') = false := by decide
  have f7 : ('~' == '\'') = false := by decide
  unfold tokenize_step
  simp only [h0, f1, Bool.false_eq_true, if_false, beq_self_eq_true, if_true]
  rw [← h0, hc]
  simp only [h0]
  unfold dispatch
  simp only [f2, f3, f4, f5, f6, h0, f7, Bool.false_eq_true, if_false]

theorem tokenize_loop_unrecognized (source : List Char)
    (h : ∀ c ∈ source, isspace c = true ∨ unrecognized c = true) :
    ∀ (fuel index line : Nat), source.length - index < fuel →
      ∃ l, tokenize_loop source (strlen source) fuel index line [] 0 =
        some ([⟨TOKEN_EOF, "EOF".toList, l⟩], 0, l) := by
  intro fuel
  induction fuel with
  | zero => intro index line hf; omega
  | succ fuel ih =>
    intro index line hf
    by_cases hlt : index < strlen source
    · have hlen : index < source.length := lt_of_lt_of_le hlt (strlen_le_length source)
      have hne := charAt_ne_NUL_of_lt_strlen source index hlt
      by_cases hs : isspace (charAt source index) = true
      · rw [tokenize_loop_step_none source _ fuel index line [] 0 hlt
          (tokenize_step_of_space source index line hs)]
        exact ih _ _ (by omega)
      · have hu : unrecognized (charAt source index) = true := by
          rcases h _ (charAt_mem hlen) with h1 | h1
          · exact absurd h1 hs
          · exact h1
        rw [tokenize_loop_step_none source _ fuel index line [] 0 hlt
          (tokenize_step_of_unrecognized source index line (by simpa using hs) hne hu)]
        exact ih _ _ (by omega)
    · exact ⟨line, by
        rw [tokenize_loop_done source _ (fuel + 1) index line [] 0 (by omega) hlt]; rfl⟩

/-- C19. For every source made only of whitespace and of characters that are
not a letter, digit, underscore, `~`, `"`, `'`, operator character or
delimiter character, `tokenize` returns only the EOF token (and
`token_count` 0).  Likewise, at any position of any source holding a `~` not
followed by `~` or `^`, one iteration of the driver loop stores no token and
advances the index by one, leaving the line counter as it is. -/
theorem tokenize_unrecognized_only_EOF (source : List Char) (line_number : Nat)
    (h : ∀ c ∈ source, isspace c = true ∨ unrecognized c = true) :
    (∃ l, tokenize source line_number = some ([⟨TOKEN_EOF, "EOF".toList, l⟩], 0, l)) ∧
      ∀ (src : List Char) (index line : Nat), charAt src index = '~' →
        charAt src (index + 1) ≠ '~' → charAt src (index + 1) ≠ '^' →
        tokenize_step src index line = some (none, index + 1, line) :=
  ⟨tokenize_loop_unrecognized source h (source.length + 1) 0 line_number (by omega),
   tokenize_step_of_lone_tilde⟩

/-- Witness for C19: the source `@ #`, newline, `.` gives only EOF, and the
`~` of `~a` is skipped. -/
theorem tokenize_unrecognized_only_EOF_witness :
    (∀ c ∈ "@ #\n.".toList, isspace c = true ∨ unrecognized c = true) ∧
    (∃ l, tokenize "@ #\n.".toList 1 = some ([⟨TOKEN_EOF, "EOF".toList, l⟩], 0, l)) ∧
    tokenize_step "~a".toList 0 1 = some (none, 0 + 1, 1) :=
  have h := tokenize_unrecognized_only_EOF "@ #\n.".toList 1 (by decide)
  ⟨by decide, h.1, h.2 "~a".toList 0 1 (by decide) (by decide) (by decide)⟩

/-! ## C14: words -/

theorem word_loop_spec (source : List Char) :
    ∀ (fuel index : Nat) (buffer : List Char),
      source.length - index < fuel →
      ∃ p, word_loop source fuel index buffer = some (index + p.length, buffer ++ p) ∧
        p <+: source.drop index ∧ (∀ c ∈ p, is_word_char c = true) ∧
        is_word_char (charAt source (index + p.length)) = false := by
  intro fuel
  induction fuel with
  | zero => intro index buffer h; omega
  | succ fuel ih =>
    intro index buffer h
    rw [word_loop]
    split
    · rename_i hc
      have hlt : index < source.length := by
        apply lt_length_of_charAt_ne
        intro h0
        rw [h0] at hc
        revert hc
        decide
      have hdrop := drop_eq_charAt_cons hlt
      obtain ⟨p, he, hpre, hall, hstop⟩ :=
        ih (index + 1) (buffer ++ [charAt source index]) (by omega)
      refine ⟨charAt source index :: p, ?_, ?_, ?_, ?_⟩
      · rw [he]
        simp only [List.length_cons, List.append_assoc, List.singleton_append,
          Option.some.injEq, Prod.mk.injEq, and_true]
        omega
      · rw [hdrop]
        exact List.prefix_cons_inj _ |>.mpr hpre
      · intro c hcm
        rcases List.mem_cons.mp hcm with rfl | hcm
        · exact hc
        · exact hall c hcm
      · have e : index + (charAt source index :: p).length = index + 1 + p.length := by
          simp only [List.length_cons]; omega
        rw [e]
        exact hstop
    · rename_i hc
      refine ⟨[], ?_, List.nil_prefix, ?_, ?_⟩
      · simp
      · intro c hcm
        cases hcm
      · simpa [is_word_char] using hc

theorem word_table_kinds :
    ∀ e ∈ word_table,
      e.2.1 = TOKEN_KEYWORD ∨ e.2.1 = TOKEN_RESERVED_WORD ∨ e.2.1 = TOKEN_NOISE_WORD := by
  decide

theorem classify_word_kind (lexeme : List Char) (line : Nat) :
    (classify_word lexeme line).type = TOKEN_KEYWORD ∨
    (classify_word lexeme line).type = TOKEN_RESERVED_WORD ∨
    (classify_word lexeme line).type = TOKEN_NOISE_WORD ∨
    (classify_word lexeme line).type = TOKEN_IDENTIFIER := by
  unfold classify_word
  split
  · rename_i ty text h
    rw [create_token_type]
    rcases word_table_kinds _ (word_switch_sound h) with h1 | h1 | h1
    · exact Or.inl h1
    · exact Or.inr (Or.inl h1)
    · exact Or.inr (Or.inr (Or.inl h1))
  · rw [create_token_type]
    exact Or.inr (Or.inr (Or.inr rfl))

theorem tokenize_step_of_word_start (source : List Char) (index line : Nat)
    (hc : (isalpha (charAt source index) || charAt source index == '_') = true) :
    ∃ p, tokenize_step source index line =
        some (some (classify_word p line), index + p.length, line) ∧
      p <+: source.drop index ∧ p ≠ [] ∧ (∀ c ∈ p, is_word_char c = true) ∧
      is_word_char (charAt source (index + p.length)) = false := by
  obtain ⟨f1, f2, f3⟩ := word_start_facts hc
  obtain ⟨p, he, hpre, hall, hstop⟩ := word_loop_spec source (source.length + 1) index [] (by omega)
  refine ⟨p, ?_, hpre, ?_, hall, hstop⟩
  · unfold tokenize_step
    simp only [f1, Bool.false_eq_true, if_false, f2]
    unfold dispatch
    simp only [f3, Bool.false_eq_true, if_false, hc, if_true, he, List.nil_append]
  · intro e
    subst e
    rw [List.length_nil, Nat.add_zero] at hstop
    have : is_word_char (charAt source index) = true := by
      unfold is_word_char isalnum
      rw [Bool.or_eq_true] at hc
      rcases hc with h | h
      · simp [h]
      · simp [h]
    rw [this] at hstop
    cases hstop

theorem NUL_not_word_char : is_word_char NUL = false := by decide

/-- C14 (as the code has it): the source `1a` consists only of characters
from `[A-Za-z0-9_]`, yet `tokenize` splits it into two tokens, INTEGER `1`
and IDENTIFIER `a`, before EOF. -/
theorem tokenize_digit_then_letter_splits :
    "1a".toList ≠ [] ∧ (∀ c ∈ "1a".toList, is_word_char c = true) ∧
    tokenize "1a".toList 1 =
      some ([⟨TOKEN_INTEGER, "1".toList, 1⟩, ⟨TOKEN_IDENTIFIER, "a".toList, 1⟩,
        ⟨TOKEN_EOF, "EOF".toList, 1⟩], 2, 1) := by
  decide

/-- C14 (amended). For every non-empty source shorter than the 64-character
word buffer, consisting only of characters from `[A-Za-z0-9_]`, whose first
character is a letter or an underscore, `tokenize` yields exactly one token
before EOF: the token `classify_word` gives the whole source, whose kind is
one of KEYWORD, RESERVED_WORD, NOISE_WORD or IDENTIFIER. -/
theorem tokenize_word_is_one_token (source : List Char) (line_number : Nat)
    (_hlen : source.length < 64)
    (hall : ∀ c ∈ source, is_word_char c = true)
    (hfirst : (isalpha (charAt source 0) || charAt source 0 == '_') = true) :
    ∃ t, tokenize source line_number =
        some ([t, ⟨TOKEN_EOF, "EOF".toList, line_number⟩], 1, line_number) ∧
      t = classify_word source line_number ∧
      (t.type = TOKEN_KEYWORD ∨ t.type = TOKEN_RESERVED_WORD ∨ t.type = TOKEN_NOISE_WORD ∨
        t.type = TOKEN_IDENTIFIER) := by
  have hnul : NUL ∉ source := by
    intro hm
    have := hall NUL hm
    rw [NUL_not_word_char] at this
    cases this
  have hlt : 0 < source.length := by
    apply lt_length_of_charAt_ne
    intro h0
    rw [h0] at hfirst
    revert hfirst
    decide
  obtain ⟨p, hstep, hpre, _, _, hstop⟩ := tokenize_step_of_word_start source 0 line_number hfirst
  have hp : p = source := by
    rw [List.drop_zero] at hpre
    have hle : p.length ≤ source.length := hpre.length_le
    rcases Nat.lt_or_ge p.length source.length with hl | hl
    · have hm := hall _ (charAt_mem hl)
      rw [Nat.zero_add] at hstop
      rw [hstop] at hm
      cases hm
    · exact hpre.eq_of_length_le hl
  subst hp
  refine ⟨classify_word p line_number, ?_, rfl, classify_word_kind p line_number⟩
  unfold tokenize
  rw [strlen_eq_length hnul,
    tokenize_loop_step_some p p.length p.length 0 line_number [] 0 hlt hstep,
    tokenize_loop_done p p.length p.length _ line_number _ _ (by omega) (by omega)]
  rfl

/-- Witness for C14 (amended): the source `x1_y` is one IDENTIFIER token. -/
theorem tokenize_word_is_one_token_witness :
    "x1_y".toList.length < 64 ∧ (∀ c ∈ "x1_y".toList, is_word_char c = true) ∧
    ∃ t, tokenize "x1_y".toList 1 =
        some ([t, ⟨TOKEN_EOF, "EOF".toList, 1⟩], 1, 1) ∧
      t = classify_word "x1_y".toList 1 ∧
      (t.type = TOKEN_KEYWORD ∨ t.type = TOKEN_RESERVED_WORD ∨ t.type = TOKEN_NOISE_WORD ∨
        t.type = TOKEN_IDENTIFIER) :=
  ⟨by decide, by decide,
   tokenize_word_is_one_token "x1_y".toList 1 (by decide) (by decide) (by decide)⟩

/-! ## C15: token text and consumed substring -/

theorem digit_facts {c : Char} (h : isdigit c = true) :
    isspace c = false ∧ (c == '~') = false := by
  refine ⟨?_, ?_⟩
  · simp only [isdigit, isspace, Bool.or_eq_true, Bool.and_eq_true, decide_eq_true_eq,
      Bool.or_eq_false_iff, Bool.and_eq_false_iff, decide_eq_false_iff_not] at h ⊢
    omega
  · rw [beq_eq_false_iff_ne]
    intro e
    rw [e] at h
    revert h
    decide

theorem operator_facts {c : Char} (h : c ∈ operator_chars) :
    isspace c = false ∧ (c == '~') = false ∧ isdigit c = false ∧
      (isalpha c || c == '_') = false ∧ strchr operator_chars c = true := by
  simp only [operator_chars, String.toList, List.mem_cons, List.mem_singleton] at h
  simp only [List.not_mem_nil, or_false] at h
  rcases h with h | h | h | h | h | h | h | h | h | h | h | h | h <;> subst h <;> decide

theorem delimiter_facts {c : Char} (h : c ∈ delimiter_chars) :
    isspace c = false ∧ (c == '~') = false ∧ isdigit c = false ∧
      (isalpha c || c == '_') = false ∧ strchr operator_chars c = false ∧
      strchr delimiter_chars c = true ∧ c ≠ NUL := by
  simp only [delimiter_chars, List.mem_cons, List.mem_singleton] at h
  simp only [List.not_mem_nil, or_false] at h
  rcases h with h | h | h | h | h | h | h | h <;> subst h <;> decide

theorem tokenize_step_of_digit (source : List Char) (index line : Nat)
    (hc : isdigit (charAt source index) = true) :
    ∃ p, tokenize_step source index line =
        some (some ⟨if '.' ∈ p then TOKEN_FLOAT else TOKEN_INTEGER, p, line⟩,
          index + p.length, line) ∧
      p <+: source.drop index ∧ p ≠ [] := by
  obtain ⟨f1, f2⟩ := digit_facts hc
  obtain ⟨p, he, hpre, hval, hmax⟩ := classify_number_spec source index line
  have hlt : index < source.length := by
    apply lt_length_of_charAt_ne
    intro h0
    rw [h0] at hc
    revert hc
    decide
  refine ⟨p, ?_, hpre, ?_⟩
  · unfold tokenize_step
    simp only [f1, Bool.false_eq_true, if_false, f2]
    unfold dispatch
    simp only [hc, if_true, he]
  · intro e
    subst e
    have h1 := hmax [charAt source index]
      (by rw [drop_eq_charAt_cons hlt]; simp)
      ⟨by intro c hm; rw [List.mem_singleton] at hm; subst hm; exact Or.inl hc, by
        have hne : charAt source index ≠ '.' := by
          intro e
          rw [e] at hc
          revert hc
          decide
        simp [List.count_singleton, hne]⟩
    simp at h1

theorem tokenize_step_of_operator (source : List Char) (index line : Nat)
    (hc : charAt source index ∈ operator_chars) :
    tokenize_step source index line =
      some ((classify_operator source index line).1,
        (classify_operator source index line).2, line) := by
  obtain ⟨f1, f2, f3, f4, f5⟩ := operator_facts hc
  unfold tokenize_step
  simp only [f1, Bool.false_eq_true, if_false, f2]
  unfold dispatch
  simp only [f3, f4, f5, Bool.false_eq_true, if_false, if_true]

theorem tokenize_step_of_delimiter (source : List Char) (index line : Nat)
    (hc : charAt source index ∈ delimiter_chars) :
    tokenize_step source index line =
      some (some (classify_delimiter (charAt source index) line), index + 1, line) := by
  obtain ⟨f1, f2, f3, f4, f5, f6, _⟩ := delimiter_facts hc
  unfold tokenize_step
  simp only [f1, Bool.false_eq_true, if_false, f2]
  unfold dispatch
  simp only [f3, f4, f5, f6, Bool.false_eq_true, if_false, if_true]

theorem classify_delimiter_value {c : Char} (h : c ∈ delimiter_chars) (line : Nat) :
    (classify_delimiter c line).value = [c] ∧
      (classify_delimiter c line).type ≠ TOKEN_KEYWORD ∧
      (classify_delimiter c line).type ≠ TOKEN_RESERVED_WORD ∧
      (classify_delimiter c line).type ≠ TOKEN_NOISE_WORD := by
  simp only [delimiter_chars, List.mem_cons, List.mem_singleton] at h
  simp only [List.not_mem_nil, or_false] at h
  rcases h with h | h | h | h | h | h | h | h <;> subst h <;>
    exact ⟨rfl, fun e => TokenType.noConfusion e, fun e => TokenType.noConfusion e,
      fun e => TokenType.noConfusion e⟩

theorem two_char_operators_kinds :
    ∀ e ∈ two_char_operators,
      e.2 ≠ TOKEN_KEYWORD ∧ e.2 ≠ TOKEN_RESERVED_WORD ∧ e.2 ≠ TOKEN_NOISE_WORD := by
  decide

theorem one_char_operators_kinds :
    ∀ e ∈ one_char_operators,
      e.2 ≠ TOKEN_KEYWORD ∧ e.2 ≠ TOKEN_RESERVED_WORD ∧ e.2 ≠ TOKEN_NOISE_WORD := by
  decide

set_option maxRecDepth 100000 in
theorem word_table_texts :
    ∀ e ∈ word_table, e.2.2 = e.1.map Char.toUpper ∧ strdup e.2.2 = e.2.2 ∧ e.2.2 ≠ [] := by
  decide

theorem prefix_take_eq {p l : List Char} (h : p <+: l) (n : Nat) (hn : n = p.length) :
    l.take n = p := by
  subst hn
  exact (List.prefix_iff_eq_take.mp h).symm

theorem classify_word_text {p : List Char} (hall : ∀ c ∈ p, is_word_char c = true)
    (line : Nat) :
    ((classify_word p line).type = TOKEN_KEYWORD ∨
        (classify_word p line).type = TOKEN_RESERVED_WORD ∨
        (classify_word p line).type = TOKEN_NOISE_WORD →
      (p, (classify_word p line).type, (classify_word p line).value) ∈ word_table ∧
        (classify_word p line).value = p.map Char.toUpper) ∧
    (¬ ((classify_word p line).type = TOKEN_KEYWORD ∨
        (classify_word p line).type = TOKEN_RESERVED_WORD ∨
        (classify_word p line).type = TOKEN_NOISE_WORD) →
      (classify_word p line).value = p) := by
  have hp : strdup p = p := strdup_eq_self (NUL_not_mem_of_word_chars hall)
  unfold classify_word
  split
  · rename_i ty text h
    have hm := word_switch_sound h
    rw [hp] at hm
    obtain ⟨h1, h2, _⟩ := word_table_texts _ hm
    simp only [create_token]
    rw [h2]
    refine ⟨fun _ => ⟨hm, h1⟩, fun hn => absurd (word_table_kinds _ hm) hn⟩
  · dsimp only [create_token]
    refine ⟨fun hk => ?_, fun _ => hp⟩
    rcases hk with hk | hk | hk <;> cases hk

/-- C15 (as the code has it): on the source `let` the word token consumes
the three characters `let` but carries the text `LET`. -/
theorem tokenize_noise_word_text_differs :
    tokenize_step "let".toList 0 1 =
      some (some ⟨TOKEN_NOISE_WORD, "LET".toList, 1⟩, 3, 1) ∧
    tokenize "let".toList 1 =
      some ([⟨TOKEN_NOISE_WORD, "LET".toList, 1⟩, ⟨TOKEN_EOF, "EOF".toList, 1⟩], 1, 1) ∧
    ("let".toList.drop 0).take (3 - 0) = "let".toList ∧
    "LET".toList ≠ ("let".toList.drop 0).take (3 - 0) := by
  decide

/-- C15 (amended). For every token that an iteration of the loop of
`tokenize` stores from a position holding a digit, a letter, an underscore, an
operator character or a delimiter character, having consumed fewer than 64
characters (the size of the number and word buffers): the iteration consumes
at least one character; if the token's kind is KEYWORD, RESERVED_WORD or
NOISE_WORD the consumed substring is a word of the vocabulary table and the
token's text is its upper-case spelling; otherwise (identifier, number,
operator, delimiter) the token's text is exactly the consumed substring. -/
theorem tokenize_step_text (source : List Char) (index line : Nat) (t : Token) (i l : Nat)
    (hc : isdigit (charAt source index) = true ∨ isalpha (charAt source index) = true ∨
      charAt source index = '_' ∨ charAt source index ∈ operator_chars ∨
      charAt source index ∈ delimiter_chars)
    (hs : tokenize_step source index line = some (some t, i, l))
    (_hlen : i - index < 64) :
    index < i ∧
    (t.type = TOKEN_KEYWORD ∨ t.type = TOKEN_RESERVED_WORD ∨ t.type = TOKEN_NOISE_WORD →
      ((source.drop index).take (i - index), t.type, t.value) ∈ word_table ∧
        t.value = ((source.drop index).take (i - index)).map Char.toUpper) ∧
    (¬ (t.type = TOKEN_KEYWORD ∨ t.type = TOKEN_RESERVED_WORD ∨ t.type = TOKEN_NOISE_WORD) →
      t.value = (source.drop index).take (i - index)) := by
  rcases hc with hc | hc | hc | hc | hc
  · obtain ⟨p, he, hpre, hne⟩ := tokenize_step_of_digit source index line hc
    rw [he] at hs
    simp only [Option.some.injEq, Prod.mk.injEq] at hs
    obtain ⟨ht, hi, _⟩ := hs
    subst ht hi
    have hlen : 0 < p.length := List.length_pos.mpr hne
    rw [prefix_take_eq hpre _ (by omega)]
    refine ⟨by omega, fun hk => ?_, fun _ => rfl⟩
    dsimp only at hk
    split at hk <;> rcases hk with hk | hk | hk <;> cases hk
  · obtain ⟨p, he, hpre, hne, hall, _⟩ :=
      tokenize_step_of_word_start source index line (by simp [hc])
    rw [he] at hs
    simp only [Option.some.injEq, Prod.mk.injEq] at hs
    obtain ⟨ht, hi, _⟩ := hs
    subst ht hi
    have hlen : 0 < p.length := List.length_pos.mpr hne
    rw [prefix_take_eq hpre _ (by omega)]
    exact ⟨by omega, classify_word_text hall line⟩
  · obtain ⟨p, he, hpre, hne, hall, _⟩ :=
      tokenize_step_of_word_start source index line (by simp [hc])
    rw [he] at hs
    simp only [Option.some.injEq, Prod.mk.injEq] at hs
    obtain ⟨ht, hi, _⟩ := hs
    subst ht hi
    have hlen : 0 < p.length := List.length_pos.mpr hne
    rw [prefix_take_eq hpre _ (by omega)]
    exact ⟨by omega, classify_word_text hall line⟩
  · rw [tokenize_step_of_operator source index line hc] at hs
    simp only [Option.some.injEq, Prod.mk.injEq] at hs
    obtain ⟨ht, hi, _⟩ := hs
    have hlt : index < source.length := by
      apply lt_length_of_charAt_ne
      intro h0
      rw [h0] at hc
      revert hc
      decide
    rcases classify_operator_cases source index line _ rfl with
      ⟨ty, hm, hr⟩ | ⟨ty, hm, _, hr⟩ | ⟨_, _, hr⟩ | ⟨hn, _⟩
    · rw [hr] at ht hi
      simp only [Option.some.injEq] at ht
      subst ht hi
      have hlt2 : index + 1 < source.length :=
        lt_length_of_charAt_ne (mem_two_char_next_ne_NUL hm)
      have e : (source.drop index).take (index + 2 - index) =
          [charAt source index, charAt source (index + 1)] := by
        rw [show index + 2 - index = 2 by omega]
        exact drop_take_two hlt2
      rw [e]
      obtain ⟨k1, k2, k3⟩ := two_char_operators_kinds _ hm
      refine ⟨by omega, fun hk => ?_, fun _ => rfl⟩
      rcases hk with hk | hk | hk
      · exact absurd hk k1
      · exact absurd hk k2
      · exact absurd hk k3
    · rw [hr] at ht hi
      simp only [Option.some.injEq] at ht
      subst ht hi
      have e : (source.drop index).take (index + 1 - index) = [charAt source index] := by
        rw [show index + 1 - index = 1 by omega]
        exact drop_take_one hlt
      rw [e]
      obtain ⟨k1, k2, k3⟩ := one_char_operators_kinds _ hm
      refine ⟨by omega, fun hk => ?_, fun _ => rfl⟩
      rcases hk with hk | hk | hk
      · exact absurd hk k1
      · exact absurd hk k2
      · exact absurd hk k3
    · rw [hr] at ht
      cases ht
    · exact absurd hc hn
  · rw [tokenize_step_of_delimiter source index line hc] at hs
    simp only [Option.some.injEq, Prod.mk.injEq] at hs
    obtain ⟨ht, hi, _⟩ := hs
    subst ht hi
    have hlt : index < source.length :=
      lt_length_of_charAt_ne (delimiter_facts hc).2.2.2.2.2.2
    have e : (source.drop index).take (index + 1 - index) = [charAt source index] := by
      rw [show index + 1 - index = 1 by omega]
      exact drop_take_one hlt
    rw [e]
    obtain ⟨v, k1, k2, k3⟩ := classify_delimiter_value hc line
    refine ⟨by omega, fun hk => ?_, fun _ => v⟩
    rcases hk with hk | hk | hk
    · exact absurd hk k1
    · exact absurd hk k2
    · exact absurd hk k3

/-- Witness for C15 (amended): the first iteration on `x1+2`, an identifier
whose text is the consumed `x1`. -/
theorem tokenize_step_text_witness :
    tokenize_step "x1+2".toList 0 1 = some (some ⟨TOKEN_IDENTIFIER, "x1".toList, 1⟩, 2, 1) ∧
    (0 < 2 ∧
    (TOKEN_IDENTIFIER = TOKEN_KEYWORD ∨ TOKEN_IDENTIFIER = TOKEN_RESERVED_WORD ∨
        TOKEN_IDENTIFIER = TOKEN_NOISE_WORD →
      (("x1+2".toList.drop 0).take (2 - 0), TOKEN_IDENTIFIER, "x1".toList) ∈ word_table ∧
        "x1".toList = (("x1+2".toList.drop 0).take (2 - 0)).map Char.toUpper) ∧
    (¬ (TOKEN_IDENTIFIER = TOKEN_KEYWORD ∨ TOKEN_IDENTIFIER = TOKEN_RESERVED_WORD ∨
        TOKEN_IDENTIFIER = TOKEN_NOISE_WORD) →
      "x1".toList = ("x1+2".toList.drop 0).take (2 - 0))) :=
  ⟨by decide,
   tokenize_step_text "x1+2".toList 0 1 ⟨TOKEN_IDENTIFIER, "x1".toList, 1⟩ 2 1
     (by decide) (by decide) (by decide)⟩

/-! ## Invariants of the driver loop -/

theorem tokenize_loop_invariant (source : List Char) (length : Nat)
    (Inv : Nat → Nat → List Token → Prop)
    (hsome : ∀ (index line : Nat) (tokens : List Token) (t : Token) (i l : Nat),
      index < length → Inv index line tokens →
      tokenize_step source index line = some (some t, i, l) → Inv i l (tokens ++ [t]))
    (hnone : ∀ (index line : Nat) (tokens : List Token) (i l : Nat),
      index < length → Inv index line tokens →
      tokenize_step source index line = some (none, i, l) → Inv i l tokens) :
    ∀ (fuel index line : Nat) (tokens : List Token) (count : Nat)
      (toks : List Token) (n last : Nat),
      Inv index line tokens →
      tokenize_loop source length fuel index line tokens count = some (toks, n, last) →
      ∃ i body, ¬ i < length ∧ Inv i last body ∧
        toks = body ++ [⟨TOKEN_EOF, "EOF".toList, last⟩] := by
  intro fuel
  induction fuel with
  | zero =>
    intro index line tokens count toks n last _ h
    rw [tokenize_loop] at h
    cases h
  | succ fuel ih =>
    intro index line tokens count toks n last hinv h
    by_cases hlt : index < length
    · rw [tokenize_loop, if_pos hlt] at h
      cases hs : tokenize_step source index line with
      | none =>
        rw [hs] at h
        cases h
      | some r =>
        obtain ⟨tok, i, l⟩ := r
        rw [hs] at h
        cases tok with
        | none =>
          exact ih i l tokens count toks n last (hnone index line tokens i l hlt hinv hs) h
        | some t =>
          exact ih i l (tokens ++ [t]) (count + 1) toks n last
            (hsome index line tokens t i l hlt hinv hs) h
    · rw [tokenize_loop_done source length (fuel + 1) index line tokens count (by omega) hlt] at h
      simp only [Option.some.injEq, Prod.mk.injEq] at h
      obtain ⟨h1, _, h3⟩ := h
      subst h3
      exact ⟨index, tokens, hlt, hinv, h1.symm⟩

theorem tokenize_some (source : List Char) (line_number : Nat) :
    ∃ toks n last, tokenize source line_number = some (toks, n, last) := by
  obtain ⟨toks, last, h, _⟩ := tokenize_loop_some source (strlen source)
    (strlen_le_length source) (source.length + 1) 0 line_number [] 0 (by omega)
  exact ⟨_, _, _, h⟩

/-! ## C20: non-empty token text -/

theorem strdup_pair_NUL {c : Char} (h : c ≠ NUL) : strdup [c, NUL] = [c] := by
  have hb : (c != NUL) = true := by simpa using h
  simp [strdup, List.takeWhile_cons, hb]

theorem classify_character_value (source : List Char) (index line : Nat) (t : Token)
    (h : (classify_character source index line).1 = some t) :
    t.value ≠ [] ∧ t.line_num = line := by
  unfold classify_character at h
  split at h
  · cases h
  · dsimp only at h
    split at h
    · cases h
    · rename_i hc
      split at h
      · cases h
      · simp only [Option.some.injEq] at h
        rw [← h]
        have hn : charAt source (index + 1) ≠ NUL := by
          intro e
          rw [e] at hc
          simp at hc
        simp [create_token, strdup_pair_NUL hn]

theorem string_loop_line (source : List Char) :
    ∀ (fuel index : Nat) (buffer : List Char) (line i : Nat) (b : List Char) (l : Nat),
      string_loop source fuel index buffer line = some (i, b, l) → line ≤ l := by
  intro fuel
  induction fuel with
  | zero => intro index buffer line i b l h; rw [string_loop] at h; cases h
  | succ fuel ih =>
    intro index buffer line i b l h
    rw [string_loop] at h
    split at h
    · have := ih _ _ _ _ _ _ h
      split at this <;> omega
    · simp only [Option.some.injEq, Prod.mk.injEq] at h
      omega

theorem block_comment_loop_line (source : List Char) :
    ∀ (fuel index : Nat) (buffer : List Char) (line i : Nat) (b : List Char) (l : Nat),
      block_comment_loop source fuel index buffer line = some (i, b, l) → line ≤ l := by
  intro fuel
  induction fuel with
  | zero => intro index buffer line i b l h; rw [block_comment_loop] at h; cases h
  | succ fuel ih =>
    intro index buffer line i b l h
    rw [block_comment_loop] at h
    split at h
    · split at h
      · have := ih _ _ _ _ _ _ h
        omega
      · exact ih _ _ _ _ _ _ h
    · simp only [Option.some.injEq, Prod.mk.injEq] at h
      omega

theorem classify_comment_lines (source : List Char) (index line : Nat) (tok : Option Token)
    (i l : Nat) (h : classify_comment source index line = some (tok, i, l)) :
    line ≤ l ∧ ∀ t, tok = some t → t.line_num = line := by
  unfold classify_comment at h
  dsimp only at h
  split at h
  · split at h
    · cases h
    · simp only [Option.some.injEq, Prod.mk.injEq] at h
      obtain ⟨h1, _, h3⟩ := h
      subst h1 h3
      exact ⟨Nat.le_refl _, fun t ht => by cases ht; rfl⟩
  · split at h
    · split at h
      · cases h
      · rename_i i1 b l1 hl
        simp only [Option.some.injEq, Prod.mk.injEq] at h
        obtain ⟨h1, _, h3⟩ := h
        subst h1 h3
        exact ⟨block_comment_loop_line source _ _ _ _ _ _ _ hl, fun t ht => by cases ht; rfl⟩
    · simp only [Option.some.injEq, Prod.mk.injEq] at h
      obtain ⟨h1, _, h3⟩ := h
      subst h1 h3
      exact ⟨Nat.le_refl _, fun t ht => by cases ht⟩

theorem classify_string_lines (source : List Char) (index line : Nat) (t : Token)
    (i l : Nat) (h : classify_string source index line = some (t, i, l)) :
    line ≤ l ∧ t.line_num = l := by
  unfold classify_string at h
  split at h
  · cases h
  · rename_i i1 b l1 hl
    simp only [Option.some.injEq, Prod.mk.injEq] at h
    obtain ⟨h1, _, h3⟩ := h
    subst h1 h3
    exact ⟨string_loop_line source _ _ _ _ _ _ _ hl, rfl⟩

theorem classify_number_line (source : List Char) (index line : Nat) (t : Token) (i : Nat)
    (h : classify_number source index line = some (t, i)) : t.line_num = line := by
  unfold classify_number at h
  split at h
  · cases h
  · simp only [Option.some.injEq, Prod.mk.injEq] at h
    rw [← h.1]
    rfl

theorem classify_word_line (lexeme : List Char) (line : Nat) :
    (classify_word lexeme line).line_num = line := by
  unfold classify_word
  split <;> rfl

theorem classify_operator_line (source : List Char) (index line : Nat) (t : Token)
    (h : (classify_operator source index line).1 = some t) : t.line_num = line := by
  rcases classify_operator_cases source index line _ rfl with
    ⟨ty, _, hr⟩ | ⟨ty, _, _, hr⟩ | ⟨_, _, hr⟩ | ⟨_, hr⟩ <;> rw [hr] at h <;> cases h <;> rfl

theorem classify_delimiter_line (c : Char) (line : Nat) :
    (classify_delimiter c line).line_num = line := by
  unfold classify_delimiter
  repeat' split
  all_goals rfl

theorem dispatch_lines (source : List Char) (c : Char) (index line : Nat)
    (tok : Option Token) (i l : Nat)
    (h : dispatch source c index line = some (tok, i, l)) :
    line ≤ l ∧ ∀ t, tok = some t → line ≤ t.line_num ∧ t.line_num ≤ l := by
  unfold dispatch at h
  split at h
  · cases hq : classify_number source index line with
    | none => rw [hq] at h; cases h
    | some r =>
      obtain ⟨t, j⟩ := r
      rw [hq] at h
      simp only [Option.some.injEq, Prod.mk.injEq] at h
      obtain ⟨h1, _, h3⟩ := h
      subst h1 h3
      have := classify_number_line source index line t j hq
      exact ⟨Nat.le_refl _, fun t ht => by cases ht; omega⟩
  · split at h
    · split at h
      · cases h
      · simp only [Option.some.injEq, Prod.mk.injEq] at h
        obtain ⟨h1, _, h3⟩ := h
        subst h1 h3
        exact ⟨Nat.le_refl _, fun t ht => by
          cases ht
          rw [classify_word_line]
          exact ⟨Nat.le_refl _, Nat.le_refl _⟩⟩
    · split at h
      · simp only [Option.some.injEq, Prod.mk.injEq] at h
        obtain ⟨h1, _, h3⟩ := h
        subst h3
        exact ⟨Nat.le_refl _, fun t ht => by
          rw [ht] at h1
          have := classify_operator_line source index line t h1
          omega⟩
      · split at h
        · simp only [Option.some.injEq, Prod.mk.injEq] at h
          obtain ⟨h1, _, h3⟩ := h
          subst h1 h3
          exact ⟨Nat.le_refl _, fun t ht => by
            cases ht
            rw [classify_delimiter_line]
            exact ⟨Nat.le_refl _, Nat.le_refl _⟩⟩
        · split at h
          · cases hq : classify_string source index line with
            | none => rw [hq] at h; cases h
            | some r =>
              obtain ⟨t, j, k⟩ := r
              rw [hq] at h
              simp only [Option.some.injEq, Prod.mk.injEq] at h
              obtain ⟨h1, _, h3⟩ := h
              subst h1 h3
              obtain ⟨g1, g2⟩ := classify_string_lines source index line t j k hq
              exact ⟨g1, fun t ht => by cases ht; omega⟩
          · split at h
            · simp only [Option.some.injEq, Prod.mk.injEq] at h
              obtain ⟨h1, _, h3⟩ := h
              subst h3
              exact ⟨Nat.le_refl _, fun t ht => by
                rw [ht] at h1
                have := (classify_character_value source index line t h1).2
                omega⟩
            · simp only [Option.some.injEq, Prod.mk.injEq] at h
              obtain ⟨h1, _, h3⟩ := h
              subst h1 h3
              exact ⟨Nat.le_refl _, fun t ht => by cases ht⟩

theorem tokenize_step_lines (source : List Char) (index line : Nat)
    (tok : Option Token) (i l : Nat)
    (h : tokenize_step source index line = some (tok, i, l)) :
    line ≤ l ∧ ∀ t, tok = some t → line ≤ t.line_num ∧ t.line_num ≤ l := by
  unfold tokenize_step at h
  dsimp only at h
  split at h
  · simp only [Option.some.injEq, Prod.mk.injEq] at h
    obtain ⟨h1, _, h3⟩ := h
    subst h1 h3
    refine ⟨?_, fun t ht => by cases ht⟩
    split <;> omega
  · by_cases htl : charAt source index = '~'
    · simp only [htl, beq_self_eq_true, if_true] at h
      cases hq : classify_comment source index line with
      | none => rw [hq] at h; cases h
      | some r =>
        obtain ⟨ctok, j, k⟩ := r
        rw [hq] at h
        obtain ⟨g1, g2⟩ := classify_comment_lines source index line ctok j k hq
        cases ctok with
        | none =>
          dsimp only at h
          obtain ⟨d1, d2⟩ := dispatch_lines source _ j k tok i l h
          exact ⟨by omega, fun t ht => by have := d2 t ht; omega⟩
        | some c =>
          simp only [Option.some.injEq, Prod.mk.injEq] at h
          obtain ⟨h1, _, h3⟩ := h
          subst h1 h3
          have := g2 c rfl
          exact ⟨g1, fun t ht => by cases ht; omega⟩
    · have hb : (charAt source index == '~') = false := by simpa using htl
      simp only [hb, Bool.false_eq_true, if_false] at h
      exact dispatch_lines source _ index line tok i l h

theorem string_loop_shift (source : List Char) (d : Nat) :
    ∀ (fuel index : Nat) (buffer : List Char) (line : Nat),
      string_loop source fuel index buffer (line + d) =
        (string_loop source fuel index buffer line).map (fun r => (r.1, r.2.1, r.2.2 + d)) := by
  intro fuel
  induction fuel with
  | zero => intro index buffer line; rfl
  | succ fuel ih =>
    intro index buffer line
    rw [string_loop, string_loop]
    split
    · rw [← ih]
      congr 1
      split <;> omega
    · rfl

theorem block_comment_loop_shift (source : List Char) (d : Nat) :
    ∀ (fuel index : Nat) (buffer : List Char) (line : Nat),
      block_comment_loop source fuel index buffer (line + d) =
        (block_comment_loop source fuel index buffer line).map
          (fun r => (r.1, r.2.1, r.2.2 + d)) := by
  intro fuel
  induction fuel with
  | zero => intro index buffer line; rfl
  | succ fuel ih =>
    intro index buffer line
    rw [block_comment_loop, block_comment_loop]
    split
    · split
      · rw [← ih]
        congr 1
        omega
      · exact ih _ _ _
    · rfl

theorem classify_number_shift (source : List Char) (index line d : Nat) :
    classify_number source index (line + d) =
      (classify_number source index line).map (fun r => (shift_token d r.1, r.2)) := by
  unfold classify_number
  split <;> rfl

theorem classify_word_shift (lexeme : List Char) (line d : Nat) :
    classify_word lexeme (line + d) = shift_token d (classify_word lexeme line) := by
  unfold classify_word
  split <;> rfl

theorem classify_delimiter_shift (c : Char) (line d : Nat) :
    classify_delimiter c (line + d) = shift_token d (classify_delimiter c line) := by
  unfold classify_delimiter
  repeat' split
  all_goals rfl

theorem classify_character_shift (source : List Char) (index line d : Nat) :
    classify_character source index (line + d) =
      ((classify_character source index line).1.map (shift_token d),
        (classify_character source index line).2) := by
  unfold classify_character
  dsimp only
  repeat' split
  all_goals rfl

theorem classify_string_shift (source : List Char) (index line d : Nat) :
    classify_string source index (line + d) =
      (classify_string source index line).map
        (fun r => (shift_token d r.1, r.2.1, r.2.2 + d)) := by
  unfold classify_string
  rw [string_loop_shift]
  cases string_loop source (source.length + 1) (index + 1) [] line with
  | none => rfl
  | some r => rfl

theorem classify_comment_shift (source : List Char) (index line d : Nat) :
    classify_comment source index (line + d) =
      (classify_comment source index line).map
        (fun r => (r.1.map (shift_token d), r.2.1, r.2.2 + d)) := by
  unfold classify_comment
  dsimp only
  split
  · cases line_comment_loop source (source.length + 1) (index + 2) [] with
    | none => rfl
    | some r => rfl
  · split
    · rw [block_comment_loop_shift]
      cases block_comment_loop source (source.length + 1) (index + 2) [] line with
      | none => rfl
      | some r => rfl
    · rfl

theorem classify_operator_shift_aux (source : List Char) (index line d : Nat)
    (r : Option Token × Nat) (hr : classify_operator source index line = r) :
    classify_operator source index (line + d) = (r.1.map (shift_token d), r.2) := by
  unfold classify_operator at hr ⊢
  dsimp only at hr ⊢
  by_cases hc : charAt source index = '<'
  · rw [if_pos hc] at hr ⊢
    by_cases hn0 : charAt source (index + 1) = '='
    · rw [if_pos hn0] at hr ⊢
      subst hr
      rfl
    rw [if_neg hn0] at hr ⊢
    subst hr
    rfl
  rw [if_neg hc] at hr ⊢
  rename' hc => h0
  by_cases hc : charAt source index = '>'
  · rw [if_pos hc] at hr ⊢
    by_cases hn0 : charAt source (index + 1) = '='
    · rw [if_pos hn0] at hr ⊢
      subst hr
      rfl
    rw [if_neg hn0] at hr ⊢
    subst hr
    rfl
  rw [if_neg hc] at hr ⊢
  rename' hc => h1
  by_cases hc : charAt source index = '='
  · rw [if_pos hc] at hr ⊢
    by_cases hn0 : charAt source (index + 1) = '='
    · rw [if_pos hn0] at hr ⊢
      subst hr
      rfl
    rw [if_neg hn0] at hr ⊢
    subst hr
    rfl
  rw [if_neg hc] at hr ⊢
  rename' hc => h2
  by_cases hc : charAt source index = '!'
  · rw [if_pos hc] at hr ⊢
    by_cases hn0 : charAt source (index + 1) = '='
    · rw [if_pos hn0] at hr ⊢
      subst hr
      rfl
    rw [if_neg hn0] at hr ⊢
    subst hr
    rfl
  rw [if_neg hc] at hr ⊢
  rename' hc => h3
  by_cases hc : charAt source index = '&'
  · rw [if_pos hc] at hr ⊢
    by_cases hn0 : charAt source (index + 1) = '&'
    · rw [if_pos hn0] at hr ⊢
      subst hr
      rfl
    rw [if_neg hn0] at hr ⊢
    subst hr
    rfl
  rw [if_neg hc] at hr ⊢
  rename' hc => h4
  by_cases hc : charAt source index = '|'
  · rw [if_pos hc] at hr ⊢
    by_cases hn0 : charAt source (index + 1) = '|'
    · rw [if_pos hn0] at hr ⊢
      subst hr
      rfl
    rw [if_neg hn0] at hr ⊢
    subst hr
    rfl
  rw [if_neg hc] at hr ⊢
  rename' hc => h5
  by_cases hc : charAt source index = '+'
  · rw [if_pos hc] at hr ⊢
    by_cases hn0 : charAt source (index + 1) = '='
    · rw [if_pos hn0] at hr ⊢
      subst hr
      rfl
    rw [if_neg hn0] at hr ⊢
    by_cases hn1 : charAt source (index + 1) = '+'
    · rw [if_pos hn1] at hr ⊢
      subst hr
      rfl
    rw [if_neg hn1] at hr ⊢
    subst hr
    rfl
  rw [if_neg hc] at hr ⊢
  rename' hc => h6
  by_cases hc : charAt source index = '-'
  · rw [if_pos hc] at hr ⊢
    by_cases hn0 : charAt source (index + 1) = '='
    · rw [if_pos hn0] at hr ⊢
      subst hr
      rfl
    rw [if_neg hn0] at hr ⊢
    by_cases hn1 : charAt source (index + 1) = '-'
    · rw [if_pos hn1] at hr ⊢
      subst hr
      rfl
    rw [if_neg hn1] at hr ⊢
    subst hr
    rfl
  rw [if_neg hc] at hr ⊢
  rename' hc => h7
  by_cases hc : charAt source index = '*'
  · rw [if_pos hc] at hr ⊢
    by_cases hn0 : charAt source (index + 1) = '='
    · rw [if_pos hn0] at hr ⊢
      subst hr
      rfl
    rw [if_neg hn0] at hr ⊢
    subst hr
    rfl
  rw [if_neg hc] at hr ⊢
  rename' hc => h8
  by_cases hc : charAt source index = '/'
  · rw [if_pos hc] at hr ⊢
    by_cases hn0 : charAt source (index + 1) = '='
    · rw [if_pos hn0] at hr ⊢
      subst hr
      rfl
    rw [if_neg hn0] at hr ⊢
    subst hr
    rfl
  rw [if_neg hc] at hr ⊢
  rename' hc => h9
  by_cases hc : charAt source index = '$'
  · rw [if_pos hc] at hr ⊢
    by_cases hn0 : charAt source (index + 1) = '='
    · rw [if_pos hn0] at hr ⊢
      subst hr
      rfl
    rw [if_neg hn0] at hr ⊢
    subst hr
    rfl
  rw [if_neg hc] at hr ⊢
  rename' hc => h10
  by_cases hc : charAt source index = '%'
  · rw [if_pos hc] at hr ⊢
    by_cases hn0 : charAt source (index + 1) = '='
    · rw [if_pos hn0] at hr ⊢
      subst hr
      rfl
    rw [if_neg hn0] at hr ⊢
    subst hr
    rfl
  rw [if_neg hc] at hr ⊢
  rename' hc => h11
  by_cases hc : charAt source index = '^'
  · rw [if_pos hc] at hr ⊢
    subst hr
    rfl
  rw [if_neg hc] at hr ⊢
  rename' hc => h12
  subst hr
  rfl

theorem classify_operator_shift (source : List Char) (index line d : Nat) :
    classify_operator source index (line + d) =
      ((classify_operator source index line).1.map (shift_token d),
        (classify_operator source index line).2) :=
  classify_operator_shift_aux source index line d _ rfl

theorem dispatch_shift (source : List Char) (c : Char) (index line d : Nat) :
    dispatch source c index (line + d) =
      (dispatch source c index line).map
        (fun r => (r.1.map (shift_token d), r.2.1, r.2.2 + d)) := by
  unfold dispatch
  split
  · rw [classify_number_shift]
    cases classify_number source index line with
    | none => rfl
    | some r => rfl
  · split
    · cases word_loop source (source.length + 1) index [] with
      | none => rfl
      | some r =>
        dsimp only [Option.map]
        rw [classify_word_shift]
    · split
      · rw [classify_operator_shift]
        rfl
      · split
        · rw [classify_delimiter_shift]
          rfl
        · split
          · rw [classify_string_shift]
            cases classify_string source index line with
            | none => rfl
            | some r => rfl
          · split
            · rw [classify_character_shift]
              rfl
            · rfl

theorem tokenize_step_shift (source : List Char) (index line d : Nat) :
    tokenize_step source index (line + d) =
      (tokenize_step source index line).map
        (fun r => (r.1.map (shift_token d), r.2.1, r.2.2 + d)) := by
  unfold tokenize_step
  dsimp only
  by_cases hsp : isspace (charAt source index) = true
  · rw [if_pos hsp, if_pos hsp]
    dsimp only [Option.map]
    congr 3
    split <;> omega
  · rw [if_neg hsp, if_neg hsp]
    by_cases htl : (charAt source index == '~') = true
    · rw [if_pos htl, if_pos htl, classify_comment_shift]
      cases classify_comment source index line with
      | none => rfl
      | some r =>
        obtain ⟨tok, i, l⟩ := r
        cases tok with
        | none =>
          dsimp only [Option.map]
          exact dispatch_shift source _ i l d
        | some t => rfl
    · rw [if_neg htl, if_neg htl]
      dsimp only
      exact dispatch_shift source _ index line d

theorem tokenize_loop_shift (source : List Char) (length d : Nat) :
    ∀ (fuel index line : Nat) (tokens : List Token) (count : Nat),
      tokenize_loop source length fuel index (line + d) (tokens.map (shift_token d)) count =
        (tokenize_loop source length fuel index line tokens count).map (shift_result d) := by
  intro fuel
  induction fuel with
  | zero => intro index line tokens count; rfl
  | succ fuel ih =>
    intro index line tokens count
    rw [tokenize_loop, tokenize_loop]
    split
    · rw [tokenize_step_shift]
      cases tokenize_step source index line with
      | none => rfl
      | some r =>
        obtain ⟨tok, i, l⟩ := r
        cases tok with
        | none =>
          dsimp only [Option.map]
          exact ih i l tokens count
        | some t =>
          dsimp only [Option.map]
          have := ih i l (tokens ++ [t]) (count + 1)
          rw [List.map_append] at this
          exact this
    · dsimp only [Option.map, shift_result]
      rw [List.map_append]
      rfl

theorem tokenize_shift (source : List Char) (line d : Nat) :
    tokenize source (line + d) = (tokenize source line).map (shift_result d) := by
  unfold tokenize
  exact tokenize_loop_shift source _ d _ 0 line [] 0

/-- C13 (as the code has it): the global line counter is not reset between
scans.  After the scan of the one-line-feed source, the scan of `x` puts its
tokens on line 2, whereas scanned first it puts them on line 1. -/
theorem tokenize_after_differs :
    tokenize_after "\n".toList "x".toList =
      some ([⟨TOKEN_IDENTIFIER, "x".toList, 2⟩, ⟨TOKEN_EOF, "EOF".toList, 2⟩], 1, 2) ∧
    tokenize "x".toList 1 =
      some ([⟨TOKEN_IDENTIFIER, "x".toList, 1⟩, ⟨TOKEN_EOF, "EOF".toList, 1⟩], 1, 1) ∧
    tokenize_after "\n".toList "x".toList ≠ tokenize "x".toList 1 := by
  decide

theorem capture_fits_shift (source : List Char) (index line d : Nat) :
    capture_fits source index (line + d) = capture_fits source index line := by
  unfold capture_fits
  dsimp only
  rw [block_comment_loop_shift, string_loop_shift]
  cases block_comment_loop source (source.length + 1) (index + 2) [] line <;>
    cases string_loop source (source.length + 1) (index + 1) [] line <;> rfl

theorem within_bounds_loop_shift (source : List Char) (length d : Nat) :
    ∀ (fuel index line count capacity : Nat),
      within_bounds_loop source length fuel index (line + d) count capacity =
        within_bounds_loop source length fuel index line count capacity := by
  intro fuel
  induction fuel with
  | zero => intro index line count capacity; rfl
  | succ fuel ih =>
    intro index line count capacity
    rw [within_bounds_loop, within_bounds_loop, capture_fits_shift, tokenize_step_shift]
    cases tokenize_step source index line with
    | none => rfl
    | some r =>
      obtain ⟨tok, i, l⟩ := r
      cases tok with
      | none =>
        dsimp only [Option.map]
        rw [ih]
      | some t =>
        dsimp only [Option.map]
        rw [ih, ih]

theorem within_bounds_shift (source : List Char) (line d : Nat) :
    within_bounds source (line + d) = within_bounds source line := by
  unfold within_bounds
  exact within_bounds_loop_shift source _ d _ 0 line 0 10

/-- C13 (amended). For all sources A and B whose scans from a fresh state stay
within the capture buffers and the token array, the scan of A returns, leaving
the line counter at some value `last` that is at least 1; the scan of B
started at `last` stays within the buffers as well, and the token sequence
that `tokenize` returns for B when B is scanned after A is the sequence it
returns for B scanned first with every line number raised by `last - 1`: the
kinds, the texts and the token count are the same, only the line numbers are
shifted, by the number of lines the scan of A counted. -/
theorem tokenize_after_shifts (A B : List Char)
    (_hA : within_bounds A 1 = true) (hB : within_bounds B 1 = true) :
    ∃ toksA nA last, tokenize A 1 = some (toksA, nA, last) ∧ 1 ≤ last ∧
      within_bounds B last = true ∧
      tokenize_after A B = (tokenize B 1).map (shift_result (last - 1)) := by
  obtain ⟨toksA, nA, last, hA⟩ := tokenize_some A 1
  have hge : 1 ≤ last := by
    obtain ⟨i, body, _, hinv, _⟩ := tokenize_loop_invariant A (strlen A)
      (fun _ line _ => 1 ≤ line)
      (by
        intro index line tokens t i l _ hinv hs
        have := (tokenize_step_lines A index line _ i l hs).1
        omega)
      (by
        intro index line tokens i l _ hinv hs
        have := (tokenize_step_lines A index line _ i l hs).1
        omega)
      (A.length + 1) 0 1 [] 0 toksA nA last (Nat.le_refl 1) hA
    exact hinv
  have hl : last = 1 + (last - 1) := by omega
  refine ⟨toksA, nA, last, hA, hge, ?_, ?_⟩
  · rw [hl, within_bounds_shift]
    exact hB
  · unfold tokenize_after
    rw [hA]
    dsimp only
    rw [← tokenize_shift, ← hl]

/-- Witness for C13 (amended): after the scan of `a`, newline, `b`, newline,
the scan of `x = 1;` returns the tokens of the first scan of `x = 1;` with
every line raised by 2. -/
theorem tokenize_after_shifts_witness :
    within_bounds "a\nb\n".toList 1 = true ∧ within_bounds "x = 1;".toList 1 = true ∧
    tokenize_after "a\nb\n".toList "x = 1;".toList =
      some ([⟨TOKEN_IDENTIFIER, "x".toList, 3⟩, ⟨TOKEN_ASSIGNMENT_OPERATOR, "=".toList, 3⟩,
        ⟨TOKEN_INTEGER, "1".toList, 3⟩, ⟨TOKEN_DELIMITER, ";".toList, 3⟩,
        ⟨TOKEN_EOF, "EOF".toList, 3⟩], 4, 3) ∧
    ∃ toksA nA last, tokenize "a\nb\n".toList 1 = some (toksA, nA, last) ∧ 1 ≤ last ∧
      within_bounds "x = 1;".toList last = true ∧
      tokenize_after "a\nb\n".toList "x = 1;".toList =
        (tokenize "x = 1;".toList 1).map (shift_result (last - 1)) :=
  ⟨by decide, by decide, by decide,
   tokenize_after_shifts "a\nb\n".toList "x = 1;".toList (by decide) (by decide)⟩

/-! ## C21: capture buffers -/

theorem number_loop_replicate (n : Nat) :
    number_loop (List.replicate n '7') ((List.replicate n '7').length + 1) 0 [] false =
      some (n, List.replicate n '7', false) := by
  obtain ⟨p, he, hpre, _, hmax⟩ :=
    number_loop_spec (List.replicate n '7') ((List.replicate n '7').length + 1) 0 [] false
      (by omega)
  rw [List.drop_zero] at hpre hmax
  have hall : ∀ c ∈ List.replicate n '7', isdigit c = true ∨ c = '.' := by
    intro c hc
    rw [List.eq_of_mem_replicate hc]
    exact Or.inl (by decide)
  have hdot : (List.replicate n '7').count '.' = 0 := by
    rw [List.count_eq_zero]
    intro hm
    exact absurd (List.eq_of_mem_replicate hm) (by decide)
  have hlen := hmax (List.replicate n '7') (List.prefix_refl _) ⟨hall, by rw [hdot]; simp⟩
  have hp : p = List.replicate n '7' := hpre.eq_of_length_le hlen
  have hnd : decide ('.' ∈ List.replicate n '7') = false := by
    rw [decide_eq_false_iff_not]
    intro hm
    exact absurd (List.eq_of_mem_replicate hm) (by decide)
  rw [he, hp, hnd]
  simp

theorem word_loop_replicate (n : Nat) :
    word_loop (List.replicate n 'a') ((List.replicate n 'a').length + 1) 0 [] =
      some (n, List.replicate n 'a') := by
  obtain ⟨p, he, hpre, _, hstop⟩ :=
    word_loop_spec (List.replicate n 'a') ((List.replicate n 'a').length + 1) 0 [] (by omega)
  rw [List.drop_zero] at hpre
  have hp : p = List.replicate n 'a' := by
    rcases Nat.lt_or_ge p.length (List.replicate n 'a').length with hl | hl
    · have hm := List.eq_of_mem_replicate (charAt_mem hl)
      rw [Nat.zero_add, hm] at hstop
      exact absurd hstop (by decide)
    · exact hpre.eq_of_length_le hl
  rw [he, hp]
  simp

/-- C21 (as the code has it): neither capture loop tests its buffer index.
For every `n`, on a source of `n` digits the loop of `classify_number` performs
`n` writes `buffer[buffer_index++]`, at the indices 0 to `n - 1`, and
`classify_number` returns a token with the whole run as text; on a source of
`n` letters the word loop of the driver does the same.  With `n = 65` the last
write is at index 64, one past the end of the 64-character buffer, and
nothing is rejected. -/
theorem capture_is_unbounded :
    (∀ n : Nat,
      number_loop (List.replicate n '7') ((List.replicate n '7').length + 1) 0 [] false =
        some (n, List.replicate n '7', false) ∧
      word_loop (List.replicate n 'a') ((List.replicate n 'a').length + 1) 0 [] =
        some (n, List.replicate n 'a')) ∧
    (∀ line : Nat, classify_number (List.replicate 65 '7') 0 line =
      some (⟨TOKEN_INTEGER, List.replicate 65 '7', line⟩, 65)) ∧
    (List.replicate 65 '7').length = 64 + 1 := by
  refine ⟨fun n => ⟨number_loop_replicate n, word_loop_replicate n⟩, ?_, rfl⟩
  intro line
  unfold classify_number
  rw [number_loop_replicate 65]
  have hs : strdup (List.replicate 65 '7') = List.replicate 65 '7' :=
    strdup_eq_self (fun hm => absurd (List.eq_of_mem_replicate hm) (by decide))
  simp only [create_token, hs, Bool.false_eq_true, if_false]

/-! ## C22: the final line number -/

theorem tokenize_step_of_comment (source : List Char) (index line : Nat) (t : Token)
    (i l : Nat) (h0 : charAt source index = '~')
    (h : classify_comment source index line = some (some t, i, l)) :
    tokenize_step source index line = some (some t, i, l) := by
  have f1 : isspace '~' = false := by decide
  unfold tokenize_step
  simp only [h0, f1, Bool.false_eq_true, if_false, beq_self_eq_true, if_true]
  rw [← h0, h]

/-- C23. For every string literal that fits the 256-character buffer, placed
anywhere in a source, terminated by a closing quote or by the end of the
input, whose body contains `k` newlines and which starts when the line counter
is `L`: the iteration of the driver loop stores the STRING token with the body
as text and with line `L + k`, the line on which the string ends, and leaves
the counter at `L + k`.  In contrast a block comment with `k` newlines in its
body is stored with line `L`, the line on which it starts, while the counter
is left at `L + k`. -/
theorem string_token_reports_end_line (source : List Char) (index line : Nat)
    (body rest : List Char)
    (hbody : ∀ c ∈ body, c ≠ '"' ∧ c ≠ NUL) (_hlen : body.length < 256)
    (hrest : rest = [] ∨ ∃ t, rest = '"' :: t)
    (hd : source.drop index = '"' :: (body ++ rest)) :
    tokenize_step source index line =
        some (some ⟨TOKEN_STRING, body, line + body.count '\n'⟩,
          index + 1 + body.length + (if rest = [] then 0 else 1),
          line + body.count '\n') ∧
    ∀ (src : List Char) (idx : Nat) (cbody crest : List Char),
      NUL ∉ cbody → ¬ ['^', '~'] <:+: cbody → cbody.length < 256 →
      (crest = [] ∨ ∃ t, crest = '^' :: '~' :: t) →
      src.drop idx = '~' :: '^' :: (cbody ++ crest) →
      tokenize_step src idx line =
        some (some ⟨TOKEN_COMMENT, newlines_to_spaces cbody, line⟩,
          idx + 2 + cbody.length + (if crest = [] then 0 else 2),
          line + cbody.count '\n') := by
  refine ⟨?_, ?_⟩
  · rw [tokenize_step_of_quote source index line (charAt_of_drop_eq_cons hd),
      classify_string_spec source index line body rest hbody
        (drop_succ_of_drop_eq_cons hd) hrest]
    rfl
  · intro src idx cbody crest hn hno _ hcrest hcd
    exact tokenize_step_of_comment src idx line _ _ _ (charAt_of_drop_eq_cons hcd)
      (classify_comment_block_spec src idx line cbody crest hn hno hcrest hcd)

/-- Witness for C23: in `x = "a`, newline, `b";` the string starts at index 4
on line 7 and its token carries line 8; the block comment `~^a`, newline,
`b^~` started on line 7 carries line 7. -/
theorem string_token_reports_end_line_witness :
    tokenize_step "x = \"a\nb\";".toList 4 7 =
        some (some ⟨TOKEN_STRING, "a\nb".toList, 7 + "a\nb".toList.count '\n'⟩,
          4 + 1 + "a\nb".toList.length + (if "\";".toList = [] then 0 else 1),
          7 + "a\nb".toList.count '\n') ∧
    7 + "a\nb".toList.count '\n' = 8 ∧
    tokenize_step "~^a\nb^~".toList 0 7 =
        some (some ⟨TOKEN_COMMENT, newlines_to_spaces "a\nb".toList, 7⟩,
          0 + 2 + "a\nb".toList.length + (if "^~".toList = [] then 0 else 2),
          7 + "a\nb".toList.count '\n') :=
  have h := string_token_reports_end_line "x = \"a\nb\";".toList 4 7 "a\nb".toList
    "\";".toList (by decide) (by decide) (Or.inr ⟨";".toList, rfl⟩) (by decide)
  ⟨h.1, by decide,
   h.2 "~^a\nb^~".toList 0 "a\nb".toList "^~".toList (by decide) (by decide) (by decide)
     (Or.inr ⟨[], rfl⟩) (by decide)⟩

/-! ## C24: character literals and the line counter -/

theorem tokenize_step_of_apostrophe (source : List Char) (index line : Nat)
    (h : charAt source index = '\'') :
    tokenize_step source index line =
      some ((classify_character source index line).1,
        (classify_character source index line).2, line) := by
  have h1 : isspace '\'' = false := by decide
  have h2 : ('\'' == '~') = false := by decide
  have h3 : isdigit '\'' = false := by decide
  have h4 : (isalpha '\'' || '\'' == '_') = false := by decide
  have h5 : strchr operator_chars '\'' = false := by decide
  have h6 : strchr delimiter_chars '\'' = false := by decide
  have h7 : ('\'' == '"') = false := by decide
  unfold tokenize_step
  simp only [h, h1, h2, Bool.false_eq_true, if_false]
  unfold dispatch
  simp only [h3, h4, h5, h6, h7, h, beq_self_eq_true, Bool.false_eq_true, if_false, if_true]

/-- C24. An iteration of the driver loop that starts at a single quote calls
`classify_character` and leaves the line counter unchanged on every path; a
token it stores carries the current line.  In particular a newline between two
single quotes is stored as the CHARACTER token whose text is the newline,
three characters are consumed and the counter is not advanced.  For the source
made of a single quote, a newline, a single quote and `x`, `tokenize` yields
CHARACTER (text: the newline) on line 1, IDENTIFIER `x` on line 1 and EOF on
line 1. -/
theorem classify_character_keeps_line :
    (∀ (source : List Char) (index line : Nat), charAt source index = '\'' →
      ∃ tok i, tokenize_step source index line = some (tok, i, line) ∧
        (tok, i) = classify_character source index line ∧
        ∀ t, tok = some t → t.line_num = line) ∧
    (∀ (source : List Char) (index line : Nat), charAt source index = '\'' →
      charAt source (index + 1) = '\n' → charAt source (index + 2) = '\'' →
      tokenize_step source index line =
        some (some ⟨TOKEN_CHARACTER, ['\n'], line⟩, index + 3, line)) ∧
    tokenize ['\'', '\n', '\'', 'x'] 1 =
      some ([⟨TOKEN_CHARACTER, ['\n'], 1⟩, ⟨TOKEN_IDENTIFIER, ['x'], 1⟩,
        ⟨TOKEN_EOF, "EOF".toList, 1⟩], 2, 1) := by
  refine ⟨?_, ?_, by decide⟩
  · intro source index line h
    refine ⟨_, _, tokenize_step_of_apostrophe source index line h, rfl, ?_⟩
    intro t ht
    exact (classify_character_value source index line t ht).2
  · intro source index line h0 h1 h2
    rw [tokenize_step_of_apostrophe source index line h0]
    unfold classify_character
    have f1 : ('\'' != '\'') = false := by decide
    have f2 : ('\n' == NUL || '\n' == '\'') = false := by decide
    have f3 : strdup ['\n', NUL] = ['\n'] := by decide
    simp only [h0, h1, h2, f1, f2, Bool.false_eq_true, if_false, create_token, f3]

end SimpliCty
